import Mathlib

/-!
Verification of the flow-graph construction, aggregation, layering and
validation engine of the sigma-sankey repository
(`src/lib/sankeyDataTransform.ts`), shallowly embedded in Lean 4.

JavaScript `Map` objects are embedded as insertion-ordered association
lists (`Map.set` on an existing key updates the value in place, keeping
the key's position; on a fresh key it appends; keys are unique).
JavaScript numbers are embedded as `Int` (the verified claims use only
ordering, addition and sign of values, which do not depend on the numeric
representation, and integers keep every definition kernel-computable).
JavaScript builtin coercions
(`String(..)`, `Number(..)`, `.trim()`) are modelled explicitly below.
-/

namespace SigmaSankey

/-- `alGet m k` models `m.get(k)` on a JavaScript `Map`. -/
def alGet {α : Type} : List (String × α) → String → Option α
  | [], _ => none
  | p :: rest, k => if p.1 = k then some p.2 else alGet rest k

/-- `alSet m k v` models `m.set(k, v)` on a JavaScript `Map`: update in
place when the key is present (JS `Map` keys are unique, so replacing the
first occurrence is the general behaviour), append otherwise. -/
def alSet {α : Type} : List (String × α) → String → α → List (String × α)
  | [], k, v => [(k, v)]
  | p :: rest, k, v => if p.1 = k then (k, v) :: rest else p :: alSet rest k v

theorem alGet_alSet_self {α : Type} (m : List (String × α)) (k : String) (v : α) :
    alGet (alSet m k v) k = some v := by
  induction m with
  | nil => simp [alGet, alSet]
  | cons p rest ih =>
    by_cases hp : p.1 = k
    · simp [alGet, alSet, hp]
    · simp [alGet, alSet, hp, ih]

theorem alGet_alSet_ne {α : Type} (m : List (String × α)) (k x : String) (v : α)
    (hx : x ≠ k) : alGet (alSet m k v) x = alGet m x := by
  have hkx : k ≠ x := Ne.symm hx
  induction m with
  | nil => simp [alGet, alSet, hkx]
  | cons p rest ih =>
    by_cases hp : p.1 = k
    · simp [alGet, alSet, hp, hkx]
    · by_cases hpx : p.1 = x
      · simp [alGet, alSet, hp, hpx, hx]
      · simp [alGet, alSet, hp, hpx, ih]

/-- The keys of an association list. -/
def alKeys {α : Type} (m : List (String × α)) : List String := m.map (fun p => p.1)

theorem alKeys_alSet_of_mem {α : Type} (m : List (String × α)) (k : String) (v : α)
    (h : (alGet m k).isSome) : alKeys (alSet m k v) = alKeys m := by
  induction m with
  | nil => simp [alGet] at h
  | cons p rest ih =>
    by_cases hp : p.1 = k
    · simp [alKeys, alSet, hp]
    · simp only [alGet, hp, if_neg, ite_false] at h
      simp [alKeys, alSet, hp] at ih ⊢
      exact ih h

theorem alGet_isSome_iff_mem_alKeys {α : Type} (m : List (String × α)) (k : String) :
    (alGet m k).isSome = true ↔ k ∈ alKeys m := by
  induction m with
  | nil => simp [alGet, alKeys]
  | cons p rest ih =>
    by_cases hp : p.1 = k
    · simp [alGet, alKeys, hp]
    · simp [alGet, alKeys, hp, ih, Ne.symm hp]

/-- Whitespace recognised by the model of JavaScript `String.prototype.trim`. -/
def wsChar (c : Char) : Bool :=
  c = ' ' || c = '\t' || c = '\n' || c = '\r'

/-- Model of JavaScript `String.prototype.trim`: drop leading and trailing
whitespace. -/
def jsTrim (s : String) : String :=
  ⟨(((s.data.dropWhile wsChar).reverse.dropWhile wsChar).reverse)⟩

theorem dropWhile_wsChar_of_head {l : List Char}
    (h : ∀ c, l.head? = some c → wsChar c = false) : l.dropWhile wsChar = l := by
  cases l with
  | nil => rfl
  | cons c rest =>
    have := h c rfl
    simp [List.dropWhile, this]

theorem head?_dropWhile_wsChar (l : List Char) :
    ∀ c, (l.dropWhile wsChar).head? = some c → wsChar c = false := by
  induction l with
  | nil => intro c h; simp [List.dropWhile] at h
  | cons a rest ih =>
    intro c h
    by_cases ha : wsChar a
    · simp [List.dropWhile, ha] at h
      exact ih c (by simpa [List.dropWhile] using h)
    · simp [List.dropWhile, ha] at h
      rw [h] at ha
      simpa using ha

theorem dropWhile_wsChar_suffix (l : List Char) :
    ∃ t, l = t ++ l.dropWhile wsChar := by
  induction l with
  | nil => exact ⟨[], rfl⟩
  | cons a rest ih =>
    by_cases ha : wsChar a
    · obtain ⟨t, ht⟩ := ih
      exact ⟨a :: t, by simp [List.dropWhile, ha, ← ht]⟩
    · exact ⟨[], by simp [List.dropWhile, ha]⟩

theorem getLast?_dropWhile_wsChar (l : List Char) (h : l.dropWhile wsChar ≠ []) :
    (l.dropWhile wsChar).getLast? = l.getLast? := by
  obtain ⟨t, ht⟩ := dropWhile_wsChar_suffix l
  conv_rhs => rw [ht]
  rw [List.getLast?_append_of_ne_nil _ h]

theorem jsTrim_idempotent (s : String) : jsTrim (jsTrim s) = jsTrim s := by
  unfold jsTrim
  congr 1
  set A := s.data.dropWhile wsChar with hA
  set B := A.reverse.dropWhile wsChar with hB
  -- data of the trimmed string
  simp only
  have hPB : ∀ c, B.head? = some c → wsChar c = false := head?_dropWhile_wsChar _
  -- first inner dropWhile: the head of `B.reverse` is the last of `B`,
  -- which is the last of `A.reverse`, i.e. the head of `A`, which is not ws.
  have h1 : B.reverse.dropWhile wsChar = B.reverse := by
    apply dropWhile_wsChar_of_head
    intro c hc
    have hBne : B ≠ [] := by
      intro hB0
      rw [hB0] at hc
      simp at hc
    have : B.reverse.head? = B.getLast? := by
      simp [List.head?_reverse]
    rw [this] at hc
    have : B.getLast? = A.reverse.getLast? := getLast?_dropWhile_wsChar _ (by rwa [← hB])
    rw [this] at hc
    have : A.reverse.getLast? = A.head? := by
      simp [List.getLast?_reverse]
    rw [this] at hc
    exact head?_dropWhile_wsChar s.data c (by rwa [← hA])
  rw [h1, List.reverse_reverse]
  have h2 : B.dropWhile wsChar = B := dropWhile_wsChar_of_head hPB
  rw [h2]

/-- A scalar cell of the host's columnar data
(`string | number | boolean | null`, see `src/types/sigma.ts`). -/
inductive CellValue : Type
  | str (s : String)
  | num (q : Int)
  | bool (b : Bool)
  | null
deriving DecidableEq

/-- A rendering of a JavaScript number as a string.  The verified claims
never inspect the characters of a stringified number, only whole labels,
so any fixed rendering is adequate. -/
def numToString (q : Int) : String := toString q

/-- Model of JavaScript `String(x)` on a scalar cell. -/
def jsString : CellValue → String
  | .str s => s
  | .num q => numToString q
  | .bool b => if b then "true" else "false"
  | .null => "null"

/-- Model of the JavaScript idiom `String(cell || '')` used by the row
loop: falsy cells (`null`, `false`, `0`, `''`) become the empty string. -/
def jsStringOrEmpty : CellValue → String
  | .str s => s
  | .num q => if q = 0 then "" else numToString q
  | .bool b => if b then "true" else ""
  | .null => ""

/-- Digits of a decimal numeral, or `none` when a non-digit occurs. -/
def parseDigits (l : List Char) : Option Nat :=
  l.foldl (fun acc c =>
    acc.bind (fun n => if c.isDigit then some (n * 10 + (c.toNat - 48)) else none))
    (some 0)

/-- Model of JavaScript `Number(s)` on a string: trimmed empty string is
`0`; otherwise an optionally signed decimal numeral; anything else is NaN
(`none`).  Non-integral and exotic numeric forms (fractions, hex,
exponents, `Infinity`) are modelled as NaN; no verified claim depends on
which strings parse. -/
def jsParseNumber (s : String) : Option Int :=
  match (jsTrim s).data with
  | [] => some 0
  | l =>
    let (sign, body) : Int × List Char :=
      match l with
      | '-' :: r => (-1, r)
      | '+' :: r => (1, r)
      | _ => (1, l)
    match parseDigits body with
    | some n => if body = [] then none else some (sign * n)
    | none => none

/-- Model of JavaScript `Number(x)` on a scalar cell; `none` is NaN. -/
def jsNumber : CellValue → Option Int
  | .str s => jsParseNumber s
  | .num q => some q
  | .bool b => some (if b then 1 else 0)
  | .null => some 0

/-- Model of the JavaScript idiom `Number(cell) || 0` used by the row
loop: NaN becomes `0` (and `0` stays `0`). -/
def jsNumberOr0 (c : CellValue) : Int :=
  (jsNumber c).getD 0

/-- ECharts Sankey node (`src/types/sigma.ts`): `id?`, `name`, `value?`,
`depth?`. -/
structure SankeyNode : Type where
  id : Option String := none
  name : String
  value : Option Int := none
  depth : Option Int := none
deriving DecidableEq

/-- ECharts Sankey link (`src/types/sigma.ts`).  In this codebase the
`source`/`target` endpoints are always the trimmed label strings produced
by row ingestion, so they are embedded as `String` (the defensive
`String(..)` coercions in the source are then identities).  `id` is the
optional row identifier carried by a link. -/
structure SankeyLink : Type where
  source : String
  target : String
  value : Int
  id : Option String := none
deriving DecidableEq

structure SankeyChartData : Type where
  nodes : List SankeyNode
  links : List SankeyLink
deriving DecidableEq

/-- Sigma columnar data: a mapping from column name to a sequence of
scalar cells (`src/types/sigma.ts`, `SigmaData`). -/
def SigmaData : Type := List (String × List CellValue)

/-- Model of `sigmaData[column]`. -/
def dataGet (d : SigmaData) (column : String) : Option (List CellValue) :=
  alGet d column

/-- `nodeNames.add(x)` on a JavaScript `Set`: insertion-ordered, no
duplicates. -/
def addName (names : List String) (x : String) : List String :=
  if names.contains x then names else names ++ [x]

/-- The row loop of `transformSigmaDataToSankey`
(`src/lib/sankeyDataTransform.ts`, lines 35-55): walk the three columns in
parallel, trim the labels, coerce the value, silently skip a row whose
trimmed source or target is empty or whose coerced value is `≤ 0`, and
otherwise register both labels and append a link. -/
def ingestRows : List CellValue → List CellValue → List CellValue →
    List String → List SankeyLink → List String × List SankeyLink
  | cs :: ss, ct :: ts, cv :: vs, names, links =>
    let source := jsTrim (jsStringOrEmpty cs)
    let target := jsTrim (jsStringOrEmpty ct)
    let value := jsNumberOr0 cv
    if source = "" ∨ target = "" ∨ value ≤ 0 then
      ingestRows ss ts vs names links
    else
      ingestRows ss ts vs (addName (addName names source) target)
        (links ++ [{ source := source, target := target, value := value }])
  | _, _, _, names, links => (names, links)

/-- `transformSigmaDataToSankey` (`src/lib/sankeyDataTransform.ts`,
lines 11-69): falsy inputs or a column length mismatch yield the empty
graph; otherwise the survivors of the row loop become the links and the
distinct labels, in insertion order, become the nodes. -/
def transformSigmaDataToSankey (sigmaData : Option SigmaData)
    (sourceColumn targetColumn valueColumn : String) : SankeyChartData :=
  match sigmaData with
  | none => { nodes := [], links := [] }
  | some data =>
    if sourceColumn = "" ∨ targetColumn = "" ∨ valueColumn = "" then
      { nodes := [], links := [] }
    else
      let sourceData := (dataGet data sourceColumn).getD []
      let targetData := (dataGet data targetColumn).getD []
      let valueData := (dataGet data valueColumn).getD []
      if sourceData.length ≠ targetData.length ∨
          sourceData.length ≠ valueData.length then
        { nodes := [], links := [] }
      else
        let r := ingestRows sourceData targetData valueData [] []
        { nodes := r.1.map (fun nodeName => { name := nodeName }), links := r.2 }

/-- Modelled from the spec: the identifier-column handling of row
ingestion is absent from the transform source under `src` (only its
caller, which passes an id column selector, and the chart layer, which
reads `link.id`, are present).  Per the spec, §4.1: with a fourth
identifier column the four columns must have equal length (fail fast to
the empty graph otherwise), and "each surviving provisional edge carries
the row's identifier verbatim (coerced to string); when absent, edges
carry no identifier". -/
def ingestRowsWithId : List CellValue → List CellValue → List CellValue →
    List CellValue → List String → List SankeyLink →
    List String × List SankeyLink
  | cs :: ss, ct :: ts, cv :: vs, ci :: is, names, links =>
    let source := jsTrim (jsStringOrEmpty cs)
    let target := jsTrim (jsStringOrEmpty ct)
    let value := jsNumberOr0 cv
    if source = "" ∨ target = "" ∨ value ≤ 0 then
      ingestRowsWithId ss ts vs is names links
    else
      ingestRowsWithId ss ts vs is (addName (addName names source) target)
        (links ++ [{ source := source, target := target, value := value,
                     id := some (jsString ci) }])
  | _, _, _, _, names, links => (names, links)

/-- Modelled from the spec: `transformSigmaDataToSankey` with the optional
fourth identifier column of §4.1 (see `ingestRowsWithId`).  With no
identifier column it behaves as the three-column transform. -/
def transformSigmaDataToSankeyWithId (sigmaData : Option SigmaData)
    (sourceColumn targetColumn valueColumn : String)
    (idColumn : Option String) : SankeyChartData :=
  match idColumn with
  | none => transformSigmaDataToSankey sigmaData sourceColumn targetColumn valueColumn
  | some idCol =>
    match sigmaData with
    | none => { nodes := [], links := [] }
    | some data =>
      if sourceColumn = "" ∨ targetColumn = "" ∨ valueColumn = "" then
        { nodes := [], links := [] }
      else
        let sourceData := (dataGet data sourceColumn).getD []
        let targetData := (dataGet data targetColumn).getD []
        let valueData := (dataGet data valueColumn).getD []
        let idData := (dataGet data idCol).getD []
        if sourceData.length ≠ targetData.length ∨
            sourceData.length ≠ valueData.length ∨
            sourceData.length ≠ idData.length then
          { nodes := [], links := [] }
        else
          let r := ingestRowsWithId sourceData targetData valueData idData [] []
          { nodes := r.1.map (fun nodeName => { name := nodeName }), links := r.2 }

/-- The key under which `aggregateLinks` groups a link:
`` `${link.source}->${link.target}` ``. -/
def linkKey (link : SankeyLink) : String :=
  link.source ++ "->" ++ link.target

/-- The accumulation loop of `aggregateLinks`
(`src/lib/sankeyDataTransform.ts`, lines 76-90): a `Map` keyed by
`` `${source}->${target}` ``; an existing entry has the link's value added
to it (in place, keeping its position and its other fields), a fresh key
inserts a copy of the link. -/
def aggLoop : List (String × SankeyLink) → List SankeyLink →
    List (String × SankeyLink)
  | m, [] => m
  | m, link :: rest =>
    let key := linkKey link
    match alGet m key with
    | some existing =>
      aggLoop (alSet m key { existing with value := existing.value + link.value }) rest
    | none => aggLoop (alSet m key link) rest

/-- `aggregateLinks` (`src/lib/sankeyDataTransform.ts`, lines 76-90). -/
def aggregateLinks (links : List SankeyLink) : List SankeyLink :=
  (aggLoop [] links).map (fun p => p.2)

/-- The mutable state of `calculateNodeDepths`: the node map (name to node
object, depth initialised to `0`), the visited set (insertion-ordered) and
the in-degree map. -/
structure BfsState : Type where
  nodeMap : List (String × SankeyNode)
  visited : List String
  inDeg : List (String × Int)
deriving DecidableEq

/-- The inner `links.forEach` of the BFS loop
(`src/lib/sankeyDataTransform.ts`, lines 138-148): for every link leaving
the node being visited, decrement the target's in-degree
(`(inDegree.get(t) || 0) - 1`), and when it reaches exactly `0` and the
target is unvisited, enqueue the target.  `visited` is constant during the
sweep (the visiting node was already added). -/
def relaxLinks (name : String) (visited : List String) :
    List (String × Int) → List String → List SankeyLink →
    List (String × Int) × List String
  | inDeg, next, [] => (inDeg, next)
  | inDeg, next, link :: rest =>
    if link.source = name then
      relaxLinks name visited
        (alSet inDeg link.target ((alGet inDeg link.target).getD 0 - 1))
        (if (alGet inDeg link.target).getD 0 - 1 = 0 ∧
            ¬ visited.contains link.target
         then next ++ [link.target] else next)
        rest
    else
      relaxLinks name visited inDeg next rest

/-- One dequeue step of the BFS loop (`src/lib/sankeyDataTransform.ts`,
lines 129-149): look the dequeued name up in the node map; if it exists
and is unvisited, record its depth, mark it visited and relax its outgoing
links; otherwise do nothing. -/
def processNode (links : List SankeyLink) (depth : Int) (st : BfsState)
    (next : List String) (name : String) : BfsState × List String :=
  match alGet st.nodeMap name with
  | none => (st, next)
  | some node =>
    if st.visited.contains name then (st, next)
    else
      ({ nodeMap := alSet st.nodeMap name { node with depth := some depth },
         visited := st.visited ++ [name],
         inDeg := (relaxLinks name (st.visited ++ [name]) st.inDeg next links).1 },
       (relaxLinks name (st.visited ++ [name]) st.inDeg next links).2)

/-- One wave of the BFS loop (`src/lib/sankeyDataTransform.ts`, lines
124-152): the whole queue as of the start of the `while` iteration
(`levelSize`) is dequeued at the current depth; entries pushed during the
wave form the next wave's queue. -/
def processWave (links : List SankeyLink) (depth : Int) :
    BfsState → List String → List String → BfsState × List String
  | st, [], next => (st, next)
  | st, name :: rest, next =>
    processWave links depth (processNode links depth st next name).1 rest
      (processNode links depth st next name).2

/-- The `while (queue.length > 0)` loop of `calculateNodeDepths`, as
successive waves.  The fuel argument bounds the number of waves; every
wave that yields a nonempty next queue visits at least one node, so
`nodes.length + 1` waves always suffice (`bfs_fuel_irrelevant` below). -/
def bfs (links : List SankeyLink) : Nat → BfsState → List String → Int → BfsState
  | _, st, [], _ => st
  | 0, st, _, _ => st
  | fuel + 1, st, name :: rest, depth =>
    bfs links fuel (processWave links depth st (name :: rest) []).1
      (processWave links depth st (name :: rest) []).2 (depth + 1)

/-- The node map built by `calculateNodeDepths` (line 102): every node,
keyed by name, with `depth` initialised to `0` (this initial `0` is the
fallback depth kept by nodes the BFS never reaches). -/
def initNodeMap (nodes : List SankeyNode) : List (String × SankeyNode) :=
  nodes.foldl (fun m node => alSet m node.name { node with depth := some 0 }) []

/-- The in-degree map (lines 106-113): `0` for every node, then one
increment per link at the link's target (`String(link.target)` is the
identity here, the endpoints being strings). -/
def initInDeg (nodes : List SankeyNode) (links : List SankeyLink) :
    List (String × Int) :=
  links.foldl (fun m link => alSet m link.target ((alGet m link.target).getD 0 + 1))
    (nodes.foldl (fun m node => alSet m node.name 0) [])

/-- The starting queue (lines 116-121): every in-degree map entry whose
degree is `0`, in map order. -/
def initQueue (inDeg : List (String × Int)) : List String :=
  inDeg.foldl (fun q p => if p.2 = 0 then q ++ [p.1] else q) []

/-- The BFS state as of entering the `while` loop. -/
def initState (nodes : List SankeyNode) (links : List SankeyLink) : BfsState :=
  { nodeMap := initNodeMap nodes, visited := [],
    inDeg := initInDeg nodes links }

/-- The complete BFS state after `calculateNodeDepths` has run. -/
def depthsFinalState (nodes : List SankeyNode) (links : List SankeyLink) :
    BfsState :=
  bfs links (nodes.length + 1) (initState nodes links)
    (initQueue (initInDeg nodes links)) 0

/-- `calculateNodeDepths` (`src/lib/sankeyDataTransform.ts`, lines
98-156): returns `Array.from(nodeMap.values())`. -/
def calculateNodeDepths (nodes : List SankeyNode) (links : List SankeyLink) :
    List SankeyNode :=
  (depthsFinalState nodes links).nodeMap.map (fun p => p.2)

/-- The argument of `validateSankeyData`: the defensive
`!data.nodes || !data.links` check means a field can be missing
(`null`/`undefined`); an empty array is present. -/
structure ValidateInput : Type where
  nodes : Option (List SankeyNode)
  links : Option (List SankeyLink)

structure ValidationResult : Type where
  isValid : Bool
  errors : List String
  warnings : List String
deriving DecidableEq

/-- `validateSankeyData` (`src/lib/sankeyDataTransform.ts`, lines
163-226), with the checks in source order: missing collections
short-circuit; empty nodes / empty links are errors; orphaned nodes are a
warning; links referencing unknown nodes are an error; self-referencing
links are a warning; links with value `≤ 0` are an error; `isValid` is
`errors.length === 0`. -/
def validateSankeyData (data : ValidateInput) : ValidationResult :=
  match data.nodes, data.links with
  | some nodes, some links =>
    let errors0 : List String := []
    let warnings0 : List String := []
    let errors1 := errors0 ++
      (if nodes.length = 0 then ["No nodes found in data"] else [])
    let errors2 := errors1 ++
      (if links.length = 0 then ["No links found in data"] else [])
    let nodeNames := nodes.map (fun node => node.name)
    let linkNodes := (links.map (fun link => link.source)) ++
      (links.map (fun link => link.target))
    let orphanedNodes := nodes.filter (fun node => ¬ linkNodes.contains node.name)
    let warnings1 := warnings0 ++
      (if 0 < orphanedNodes.length then
        ["Found " ++ toString orphanedNodes.length ++
          " orphaned nodes (nodes not connected to any links)"] else [])
    let invalidLinks := links.filter (fun link =>
      ¬ nodeNames.contains link.source ∨ ¬ nodeNames.contains link.target)
    let errors3 := errors2 ++
      (if 0 < invalidLinks.length then
        ["Found " ++ toString invalidLinks.length ++
          " links referencing non-existent nodes"] else [])
    let selfLinks := links.filter (fun link => link.source = link.target)
    let warnings2 := warnings1 ++
      (if 0 < selfLinks.length then
        ["Found " ++ toString selfLinks.length ++ " self-referencing links"]
       else [])
    let negativeValueLinks := links.filter (fun link => link.value ≤ 0)
    let errors4 := errors3 ++
      (if 0 < negativeValueLinks.length then
        ["Found " ++ toString negativeValueLinks.length ++
          " links with zero or negative values"] else [])
    { isValid := errors4.length == 0, errors := errors4, warnings := warnings2 }
  | _, _ =>
    { isValid := false, errors := ["Missing nodes or links data"], warnings := [] }

/-! ## Row ingestion: fail-fast and filtering -/

/-- The row-drop condition, stated as in the specification: the trimmed
source is empty, the trimmed target is empty, or the value coerced to a
number is `≤ 0`. -/
def droppedRow (cs ct cv : CellValue) : Prop :=
  jsTrim (jsStringOrEmpty cs) = "" ∨ jsTrim (jsStringOrEmpty ct) = "" ∨
    jsNumberOr0 cv ≤ 0

instance (cs ct cv : CellValue) : Decidable (droppedRow cs ct cv) := by
  unfold droppedRow; infer_instance

/-- The provisional edge a surviving row produces, `none` for a dropped
row. -/
def rowLink (cs ct cv : CellValue) : Option SankeyLink :=
  if droppedRow cs ct cv then none
  else some { source := jsTrim (jsStringOrEmpty cs),
              target := jsTrim (jsStringOrEmpty ct), value := jsNumberOr0 cv }

theorem rowLink_dropped {cs ct cv : CellValue} (h : droppedRow cs ct cv) :
    rowLink cs ct cv = none := by
  unfold rowLink; rw [if_pos h]

theorem rowLink_kept {cs ct cv : CellValue} (h : ¬ droppedRow cs ct cv) :
    rowLink cs ct cv =
      some { source := jsTrim (jsStringOrEmpty cs),
             target := jsTrim (jsStringOrEmpty ct), value := jsNumberOr0 cv } := by
  unfold rowLink; rw [if_neg h]

theorem ingestRows_cons_dropped {cs ct cv : CellValue}
    (ss ts vs : List CellValue) (names : List String) (links : List SankeyLink)
    (h : droppedRow cs ct cv) :
    ingestRows (cs :: ss) (ct :: ts) (cv :: vs) names links =
      ingestRows ss ts vs names links := by
  unfold droppedRow at h
  simp only [ingestRows]
  rw [if_pos h]

theorem ingestRows_cons_kept {cs ct cv : CellValue}
    (ss ts vs : List CellValue) (names : List String) (links : List SankeyLink)
    (h : ¬ droppedRow cs ct cv) :
    ingestRows (cs :: ss) (ct :: ts) (cv :: vs) names links =
      ingestRows ss ts vs
        (addName (addName names (jsTrim (jsStringOrEmpty cs)))
          (jsTrim (jsStringOrEmpty ct)))
        (links ++ [{ source := jsTrim (jsStringOrEmpty cs),
                     target := jsTrim (jsStringOrEmpty ct),
                     value := jsNumberOr0 cv }]) := by
  unfold droppedRow at h
  simp only [ingestRows]
  rw [if_neg h]

theorem ingestRows_links_eq (ss ts vs : List CellValue)
    (names : List String) (links : List SankeyLink) :
    (ingestRows ss ts vs names links).2 =
      links ++ (ss.zip (ts.zip vs)).filterMap
        (fun r => rowLink r.1 r.2.1 r.2.2) := by
  induction ss generalizing ts vs names links with
  | nil => cases ts <;> cases vs <;> simp [ingestRows]
  | cons cs ss ih =>
    cases ts with
    | nil => simp [ingestRows]
    | cons ct ts =>
      cases vs with
      | nil => simp [ingestRows]
      | cons cv vs =>
        by_cases h : droppedRow cs ct cv
        · rw [ingestRows_cons_dropped _ _ _ _ _ h]
          simp only [List.zip_cons_cons, List.filterMap_cons, rowLink_dropped h]
          exact ih ts vs names links
        · rw [ingestRows_cons_kept _ _ _ _ _ h]
          simp only [List.zip_cons_cons, List.filterMap_cons, rowLink_kept h]
          rw [ih]
          simp

theorem mem_addName {names : List String} {x n : String}
    (h : n ∈ addName names x) : n ∈ names ∨ n = x := by
  unfold addName at h
  by_cases hc : names.contains x
  · rw [if_pos hc] at h; exact Or.inl h
  · rw [if_neg hc] at h
    simpa using h

theorem ingestRows_names_sound (ss ts vs : List CellValue)
    (names : List String) (links : List SankeyLink) :
    ∀ n ∈ (ingestRows ss ts vs names links).1,
      n ∈ names ∨ (n ≠ "" ∧ jsTrim n = n) := by
  induction ss generalizing ts vs names links with
  | nil =>
    cases ts <;> cases vs <;> · intro n h; exact Or.inl h
  | cons cs ss ih =>
    cases ts with
    | nil => intro n h; exact Or.inl h
    | cons ct ts =>
      cases vs with
      | nil => intro n h; exact Or.inl h
      | cons cv vs =>
        intro n hn
        by_cases h : droppedRow cs ct cv
        · rw [ingestRows_cons_dropped _ _ _ _ _ h] at hn
          exact ih ts vs names links n hn
        · rw [ingestRows_cons_kept _ _ _ _ _ h] at hn
          rcases ih ts vs _ _ n hn with hm | hgood
          · rcases mem_addName hm with hm2 | htgt
            · rcases mem_addName hm2 with hm3 | hsrc
              · exact Or.inl hm3
              · refine Or.inr ⟨?_, ?_⟩
                · subst hsrc
                  unfold droppedRow at h
                  push_neg at h
                  exact h.1
                · subst hsrc; exact jsTrim_idempotent _
            · refine Or.inr ⟨?_, ?_⟩
              · subst htgt
                unfold droppedRow at h
                push_neg at h
                exact h.2.1
              · subst htgt; exact jsTrim_idempotent _
          · exact Or.inr hgood

theorem transform_eq_empty_of_cols (data : SigmaData) {sc tc vc : String}
    (hcols : sc = "" ∨ tc = "" ∨ vc = "") :
    transformSigmaDataToSankey (some data) sc tc vc = { nodes := [], links := [] } := by
  simp only [transformSigmaDataToSankey]
  rw [if_pos hcols]

theorem transform_eq_empty_of_len (data : SigmaData) {sc tc vc : String}
    (hcols : ¬ (sc = "" ∨ tc = "" ∨ vc = ""))
    (hlen : ((dataGet data sc).getD []).length ≠ ((dataGet data tc).getD []).length ∨
      ((dataGet data sc).getD []).length ≠ ((dataGet data vc).getD []).length) :
    transformSigmaDataToSankey (some data) sc tc vc = { nodes := [], links := [] } := by
  simp only [transformSigmaDataToSankey]
  rw [if_neg hcols, if_pos hlen]

theorem transform_eq_of_ok (data : SigmaData) {sc tc vc : String}
    (hcols : ¬ (sc = "" ∨ tc = "" ∨ vc = ""))
    (hlen : ¬ (((dataGet data sc).getD []).length ≠ ((dataGet data tc).getD []).length ∨
      ((dataGet data sc).getD []).length ≠ ((dataGet data vc).getD []).length)) :
    transformSigmaDataToSankey (some data) sc tc vc =
      { nodes := (ingestRows ((dataGet data sc).getD []) ((dataGet data tc).getD [])
          ((dataGet data vc).getD []) [] []).1.map (fun nodeName => { name := nodeName }),
        links := (ingestRows ((dataGet data sc).getD []) ((dataGet data tc).getD [])
          ((dataGet data vc).getD []) [] []).2 } := by
  simp only [transformSigmaDataToSankey]
  rw [if_neg hcols, if_neg hlen]

/-- C8: a missing data object, a missing column selector or a column
length mismatch each make `transformSigmaDataToSankey` return the empty
graph `{ nodes: [], links: [] }` (no rows are processed; there is no
exception to raise in this total embedding). -/
theorem transform_fail_fast (sigmaData : Option SigmaData)
    (sc tc vc : String) :
    (transformSigmaDataToSankey none sc tc vc = { nodes := [], links := [] }) ∧
    ((sc = "" ∨ tc = "" ∨ vc = "") →
      transformSigmaDataToSankey sigmaData sc tc vc = { nodes := [], links := [] }) ∧
    (∀ data, sigmaData = some data →
      ¬ (((dataGet data sc).getD []).length = ((dataGet data tc).getD []).length ∧
         ((dataGet data sc).getD []).length = ((dataGet data vc).getD []).length) →
      transformSigmaDataToSankey sigmaData sc tc vc = { nodes := [], links := [] }) := by
  refine ⟨rfl, ?_, ?_⟩
  · intro h
    cases sigmaData with
    | none => rfl
    | some data => exact transform_eq_empty_of_cols data h
  · intro data hdata hlen
    subst hdata
    rw [not_and_or] at hlen
    by_cases hcols : sc = "" ∨ tc = "" ∨ vc = ""
    · exact transform_eq_empty_of_cols data hcols
    · exact transform_eq_empty_of_len data hcols hlen

/-- Witness for `transform_fail_fast` at a concrete mismatched input. -/
theorem transform_fail_fast_witness :
    transformSigmaDataToSankey
      (some [("s", [CellValue.str "A"]), ("t", []), ("v", [])]) "s" "t" "v" =
      { nodes := [], links := [] } :=
  (transform_fail_fast
    (some [("s", [CellValue.str "A"]), ("t", []), ("v", [])]) "s" "t" "v").2.2
    _ rfl (by decide)

/-- C4: rows are dropped exactly when the trimmed source label is empty,
the trimmed target label is empty, or the value coerced to a number is
`≤ 0` (the links are precisely the row-wise `rowLink` survivors, in row
order); consequently every returned link has a strictly positive value and
non-empty, already-trimmed endpoint labels, and every returned node name
is a non-empty, already-trimmed string. -/
theorem transform_filtering_invariant (sigmaData : Option SigmaData)
    (sc tc vc : String) :
    (∀ lk ∈ (transformSigmaDataToSankey sigmaData sc tc vc).links,
      0 < lk.value ∧ lk.source ≠ "" ∧ jsTrim lk.source = lk.source ∧
      lk.target ≠ "" ∧ jsTrim lk.target = lk.target) ∧
    (∀ node ∈ (transformSigmaDataToSankey sigmaData sc tc vc).nodes,
      node.name ≠ "" ∧ jsTrim node.name = node.name) ∧
    (∀ data, sigmaData = some data → ¬ (sc = "" ∨ tc = "" ∨ vc = "") →
      ∀ ss ts vs, (dataGet data sc).getD [] = ss →
        (dataGet data tc).getD [] = ts → (dataGet data vc).getD [] = vs →
        ss.length = ts.length → ss.length = vs.length →
        (transformSigmaDataToSankey sigmaData sc tc vc).links =
          (ss.zip (ts.zip vs)).filterMap (fun r => rowLink r.1 r.2.1 r.2.2)) := by
  refine ⟨?_, ?_, ?_⟩
  · intro lk hlk
    have hmem : ∃ cs ct cv, rowLink cs ct cv = some lk := by
      cases sigmaData with
      | none => simp [transformSigmaDataToSankey] at hlk
      | some data =>
        by_cases hcols : sc = "" ∨ tc = "" ∨ vc = ""
        · rw [transform_eq_empty_of_cols data hcols] at hlk
          simp at hlk
        · by_cases hlen : ((dataGet data sc).getD []).length ≠
              ((dataGet data tc).getD []).length ∨
              ((dataGet data sc).getD []).length ≠ ((dataGet data vc).getD []).length
          · rw [transform_eq_empty_of_len data hcols hlen] at hlk
            simp at hlk
          · rw [transform_eq_of_ok data hcols hlen] at hlk
            simp only [ingestRows_links_eq, List.nil_append,
              List.mem_filterMap] at hlk
            obtain ⟨r, _, hr⟩ := hlk
            exact ⟨r.1, r.2.1, r.2.2, hr⟩
    obtain ⟨cs, ct, cv, hr⟩ := hmem
    by_cases hd : droppedRow cs ct cv
    · rw [rowLink_dropped hd] at hr
      exact absurd hr (by simp)
    · rw [rowLink_kept hd] at hr
      unfold droppedRow at hd
      push_neg at hd
      rw [Option.some.injEq] at hr
      subst hr
      exact ⟨hd.2.2, hd.1, jsTrim_idempotent _, hd.2.1,
        jsTrim_idempotent _⟩
  · intro node hnode
    cases sigmaData with
    | none => simp [transformSigmaDataToSankey] at hnode
    | some data =>
      by_cases hcols : sc = "" ∨ tc = "" ∨ vc = ""
      · rw [transform_eq_empty_of_cols data hcols] at hnode
        simp at hnode
      · by_cases hlen : ((dataGet data sc).getD []).length ≠
            ((dataGet data tc).getD []).length ∨
            ((dataGet data sc).getD []).length ≠ ((dataGet data vc).getD []).length
        · rw [transform_eq_empty_of_len data hcols hlen] at hnode
          simp at hnode
        · rw [transform_eq_of_ok data hcols hlen] at hnode
          simp only [List.mem_map] at hnode
          obtain ⟨n, hn, hnn⟩ := hnode
          rcases ingestRows_names_sound _ _ _ [] [] n hn with h0 | hgood
          · simp at h0
          · rw [← hnn]; exact hgood
  · intro data hdata hcols ss ts vs hss hts hvs hlen1 hlen2
    subst hdata
    rw [transform_eq_of_ok data hcols
      (by push_neg; rw [hss, hts, hvs]; exact ⟨hlen1, hlen2⟩)]
    rw [hss, hts, hvs]
    exact ingestRows_links_eq ss ts vs [] []

/-- Witness for `transform_filtering_invariant`: a surviving row plus a
dropped row (its target trims to empty). -/
theorem transform_filtering_invariant_witness :
    (transformSigmaDataToSankey
      (some [("s", [CellValue.str " A ", CellValue.str "B"]),
             ("t", [CellValue.str "B", CellValue.str "  "]),
             ("v", [CellValue.str "2", CellValue.num 3])]) "s" "t" "v").links =
      [{ source := "A", target := "B", value := 2 }] := by
  have h := (transform_filtering_invariant
    (some [("s", [CellValue.str " A ", CellValue.str "B"]),
           ("t", [CellValue.str "B", CellValue.str "  "]),
           ("v", [CellValue.str "2", CellValue.num 3])]) "s" "t" "v").2.2
    _ rfl (by decide) _ _ _ rfl rfl rfl (by decide) (by decide)
  rw [h]
  decide

/-! ## The optional identifier column (spec-modelled, §4.1) -/

/-- The provisional edge a surviving row produces when an identifier
column is supplied: the row's identifier, coerced to a string, rides on
the edge. -/
def rowLinkWithId (cs ct cv ci : CellValue) : Option SankeyLink :=
  if droppedRow cs ct cv then none
  else some { source := jsTrim (jsStringOrEmpty cs),
              target := jsTrim (jsStringOrEmpty ct), value := jsNumberOr0 cv,
              id := some (jsString ci) }

theorem rowLinkWithId_dropped {cs ct cv : CellValue} (ci : CellValue)
    (h : droppedRow cs ct cv) : rowLinkWithId cs ct cv ci = none := by
  unfold rowLinkWithId; rw [if_pos h]

theorem rowLinkWithId_kept {cs ct cv : CellValue} (ci : CellValue)
    (h : ¬ droppedRow cs ct cv) :
    rowLinkWithId cs ct cv ci =
      some { source := jsTrim (jsStringOrEmpty cs),
             target := jsTrim (jsStringOrEmpty ct), value := jsNumberOr0 cv,
             id := some (jsString ci) } := by
  unfold rowLinkWithId; rw [if_neg h]

theorem ingestRowsWithId_cons_dropped {cs ct cv : CellValue} (ci : CellValue)
    (ss ts vs is : List CellValue) (names : List String) (links : List SankeyLink)
    (h : droppedRow cs ct cv) :
    ingestRowsWithId (cs :: ss) (ct :: ts) (cv :: vs) (ci :: is) names links =
      ingestRowsWithId ss ts vs is names links := by
  unfold droppedRow at h
  simp only [ingestRowsWithId]
  rw [if_pos h]

theorem ingestRowsWithId_cons_kept {cs ct cv : CellValue} (ci : CellValue)
    (ss ts vs is : List CellValue) (names : List String) (links : List SankeyLink)
    (h : ¬ droppedRow cs ct cv) :
    ingestRowsWithId (cs :: ss) (ct :: ts) (cv :: vs) (ci :: is) names links =
      ingestRowsWithId ss ts vs is
        (addName (addName names (jsTrim (jsStringOrEmpty cs)))
          (jsTrim (jsStringOrEmpty ct)))
        (links ++ [{ source := jsTrim (jsStringOrEmpty cs),
                     target := jsTrim (jsStringOrEmpty ct),
                     value := jsNumberOr0 cv, id := some (jsString ci) }]) := by
  unfold droppedRow at h
  simp only [ingestRowsWithId]
  rw [if_neg h]

theorem ingestRowsWithId_links_eq (ss ts vs is : List CellValue)
    (names : List String) (links : List SankeyLink) :
    (ingestRowsWithId ss ts vs is names links).2 =
      links ++ (ss.zip (ts.zip (vs.zip is))).filterMap
        (fun r => rowLinkWithId r.1 r.2.1 r.2.2.1 r.2.2.2) := by
  induction ss generalizing ts vs is names links with
  | nil => cases ts <;> cases vs <;> cases is <;> simp [ingestRowsWithId]
  | cons cs ss ih =>
    cases ts with
    | nil => simp [ingestRowsWithId]
    | cons ct ts =>
      cases vs with
      | nil => simp [ingestRowsWithId]
      | cons cv vs =>
        cases is with
        | nil => simp [ingestRowsWithId]
        | cons ci is =>
          by_cases h : droppedRow cs ct cv
          · rw [ingestRowsWithId_cons_dropped _ _ _ _ _ _ _ h]
            simp only [List.zip_cons_cons, List.filterMap_cons,
              rowLinkWithId_dropped _ h]
            exact ih ts vs is names links
          · rw [ingestRowsWithId_cons_kept _ _ _ _ _ _ _ h]
            simp only [List.zip_cons_cons, List.filterMap_cons,
              rowLinkWithId_kept _ h]
            rw [ih]
            simp

theorem withId_eq_of_ok (data : SigmaData) {sc tc vc : String} (idCol : String)
    (hcols : ¬ (sc = "" ∨ tc = "" ∨ vc = ""))
    (hlen : ¬ (((dataGet data sc).getD []).length ≠ ((dataGet data tc).getD []).length ∨
      ((dataGet data sc).getD []).length ≠ ((dataGet data vc).getD []).length ∨
      ((dataGet data sc).getD []).length ≠ ((dataGet data idCol).getD []).length)) :
    transformSigmaDataToSankeyWithId (some data) sc tc vc (some idCol) =
      { nodes := (ingestRowsWithId ((dataGet data sc).getD [])
          ((dataGet data tc).getD []) ((dataGet data vc).getD [])
          ((dataGet data idCol).getD []) [] []).1.map
            (fun nodeName => { name := nodeName }),
        links := (ingestRowsWithId ((dataGet data sc).getD [])
          ((dataGet data tc).getD []) ((dataGet data vc).getD [])
          ((dataGet data idCol).getD []) [] []).2 } := by
  simp only [transformSigmaDataToSankeyWithId]
  rw [if_neg hcols, if_neg hlen]

/-- Any link produced by the three-column transform comes from a surviving
row via `rowLink`. -/
theorem transform_links_from_rows (sigmaData : Option SigmaData)
    (sc tc vc : String) (lk : SankeyLink)
    (hlk : lk ∈ (transformSigmaDataToSankey sigmaData sc tc vc).links) :
    ∃ cs ct cv, rowLink cs ct cv = some lk := by
  cases sigmaData with
  | none => simp [transformSigmaDataToSankey] at hlk
  | some data =>
    by_cases hcols : sc = "" ∨ tc = "" ∨ vc = ""
    · rw [transform_eq_empty_of_cols data hcols] at hlk
      simp at hlk
    · by_cases hlen : ((dataGet data sc).getD []).length ≠
          ((dataGet data tc).getD []).length ∨
          ((dataGet data sc).getD []).length ≠ ((dataGet data vc).getD []).length
      · rw [transform_eq_empty_of_len data hcols hlen] at hlk
        simp at hlk
      · rw [transform_eq_of_ok data hcols hlen] at hlk
        simp only [ingestRows_links_eq, List.nil_append, List.mem_filterMap] at hlk
        obtain ⟨r, _, hr⟩ := hlk
        exact ⟨r.1, r.2.1, r.2.2, hr⟩

/-- C1 (spec-modelled): with an identifier column, every link returned for
a surviving row carries that row's identifier coerced to a string (and the
link's other fields are that row's trimmed labels and coerced value);
without an identifier column, no returned link carries an identifier. -/
theorem withId_identifier_carried (sigmaData : Option SigmaData)
    (sc tc vc idCol : String) :
    (∀ lk ∈ (transformSigmaDataToSankeyWithId sigmaData sc tc vc (some idCol)).links,
      ∃ cs ct cv ci,
        (cs, (ct, (cv, ci))) ∈
          (((dataGet ((sigmaData.getD [])) sc).getD []).zip
            (((dataGet ((sigmaData.getD [])) tc).getD []).zip
              (((dataGet ((sigmaData.getD [])) vc).getD []).zip
                ((dataGet ((sigmaData.getD [])) idCol).getD [])))) ∧
        ¬ droppedRow cs ct cv ∧
        lk = { source := jsTrim (jsStringOrEmpty cs),
               target := jsTrim (jsStringOrEmpty ct), value := jsNumberOr0 cv,
               id := some (jsString ci) }) ∧
    (∀ lk ∈ (transformSigmaDataToSankeyWithId sigmaData sc tc vc none).links,
      lk.id = none) := by
  constructor
  · intro lk hlk
    cases sigmaData with
    | none => simp [transformSigmaDataToSankeyWithId] at hlk
    | some data =>
      by_cases hcols : sc = "" ∨ tc = "" ∨ vc = ""
      · simp only [transformSigmaDataToSankeyWithId] at hlk
        rw [if_pos hcols] at hlk
        simp at hlk
      · by_cases hlen : ((dataGet data sc).getD []).length ≠
            ((dataGet data tc).getD []).length ∨
            ((dataGet data sc).getD []).length ≠ ((dataGet data vc).getD []).length ∨
            ((dataGet data sc).getD []).length ≠ ((dataGet data idCol).getD []).length
        · simp only [transformSigmaDataToSankeyWithId] at hlk
          rw [if_neg hcols, if_pos hlen] at hlk
          simp at hlk
        · rw [withId_eq_of_ok data idCol hcols hlen] at hlk
          simp only [ingestRowsWithId_links_eq, List.nil_append,
            List.mem_filterMap] at hlk
          obtain ⟨r, hrmem, hr⟩ := hlk
          refine ⟨r.1, r.2.1, r.2.2.1, r.2.2.2, by simpa using hrmem, ?_, ?_⟩
          · intro hd
            rw [rowLinkWithId_dropped _ hd] at hr
            exact absurd hr (by simp)
          · by_cases hd : droppedRow r.1 r.2.1 r.2.2.1
            · rw [rowLinkWithId_dropped _ hd] at hr
              exact absurd hr (by simp)
            · rw [rowLinkWithId_kept _ hd] at hr
              rw [Option.some.injEq] at hr
              exact hr.symm
  · intro lk hlk
    have : lk ∈ (transformSigmaDataToSankey sigmaData sc tc vc).links := hlk
    obtain ⟨cs, ct, cv, hr⟩ := transform_links_from_rows _ _ _ _ _ this
    by_cases hd : droppedRow cs ct cv
    · rw [rowLink_dropped hd] at hr
      exact absurd hr (by simp)
    · rw [rowLink_kept hd] at hr
      rw [Option.some.injEq] at hr
      rw [← hr]

/-- Witness for `withId_identifier_carried` at a concrete two-row input
with identifiers. -/
theorem withId_identifier_carried_witness :
    (transformSigmaDataToSankeyWithId
        (some [("s", [CellValue.str "A"]), ("t", [CellValue.str "B"]),
               ("v", [CellValue.num 7]), ("i", [CellValue.num 42])])
        "s" "t" "v" (some "i")).links =
      [{ source := "A", target := "B", value := 7, id := some "42" }] ∧
    ∃ cs ct cv ci, ¬ droppedRow cs ct cv ∧
      ({ source := "A", target := "B", value := 7, id := some "42" } :
          SankeyLink) =
        { source := jsTrim (jsStringOrEmpty cs),
          target := jsTrim (jsStringOrEmpty ct), value := jsNumberOr0 cv,
          id := some (jsString ci) } := by
  have hl : (transformSigmaDataToSankeyWithId
      (some [("s", [CellValue.str "A"]), ("t", [CellValue.str "B"]),
             ("v", [CellValue.num 7]), ("i", [CellValue.num 42])])
      "s" "t" "v" (some "i")).links =
      [{ source := "A", target := "B", value := 7, id := some "42" }] := by
    rw [withId_eq_of_ok _ _ (by decide) (by decide)]
    decide
  refine ⟨hl, ?_⟩
  obtain ⟨cs, ct, cv, ci, _, hnd, hlk⟩ :=
    (withId_identifier_carried
      (some [("s", [CellValue.str "A"]), ("t", [CellValue.str "B"]),
             ("v", [CellValue.num 7]), ("i", [CellValue.num 42])])
      "s" "t" "v" "i").1
      { source := "A", target := "B", value := 7, id := some "42" }
      (by rw [hl]; exact List.mem_singleton.mpr rfl)
  exact ⟨cs, ct, cv, ci, hnd, hlk⟩

/-! ## Validator soundness -/

/-- Orphaned nodes: in the node collection, referenced by no link. -/
def orphanedCount (nodes : List SankeyNode) (links : List SankeyLink) : Nat :=
  (nodes.filter (fun node =>
    ¬ ((links.map (fun link => link.source) ++
        links.map (fun link => link.target)).contains node.name))).length

/-- Links whose source or target is not a node name. -/
def danglingCount (nodes : List SankeyNode) (links : List SankeyLink) : Nat :=
  (links.filter (fun link =>
    ¬ (nodes.map (fun node => node.name)).contains link.source ∨
    ¬ (nodes.map (fun node => node.name)).contains link.target)).length

/-- Self-referencing links. -/
def selfLoopCount (links : List SankeyLink) : Nat :=
  (links.filter (fun link => link.source = link.target)).length

/-- Links with value `≤ 0`. -/
def nonPositiveCount (links : List SankeyLink) : Nat :=
  (links.filter (fun link => link.value ≤ 0)).length

theorem beq_zero_iff_nil {α : Type} (l : List α) :
    ((l.length == 0) = true) ↔ l = [] := by
  cases l <;> simp

/-- C5: `isValid` is exactly "`errors` is empty", so warnings never
influence it; and on present collections the warning list consists
precisely of the orphaned-node and self-loop entries while the error list
consists precisely of the empty-collection, dangling-reference and
non-positive-value entries. -/
theorem validateSankeyData_sound (data : ValidateInput) :
    ((validateSankeyData data).isValid = true ↔
      (validateSankeyData data).errors = []) ∧
    (∀ nodes links, data = ⟨some nodes, some links⟩ →
      (validateSankeyData data).warnings =
        (if 0 < orphanedCount nodes links then
          ["Found " ++ toString (orphanedCount nodes links) ++
            " orphaned nodes (nodes not connected to any links)"] else []) ++
        (if 0 < selfLoopCount links then
          ["Found " ++ toString (selfLoopCount links) ++
            " self-referencing links"] else []) ∧
      (validateSankeyData data).errors =
        (if nodes.length = 0 then ["No nodes found in data"] else []) ++
        (if links.length = 0 then ["No links found in data"] else []) ++
        (if 0 < danglingCount nodes links then
          ["Found " ++ toString (danglingCount nodes links) ++
            " links referencing non-existent nodes"] else []) ++
        (if 0 < nonPositiveCount links then
          ["Found " ++ toString (nonPositiveCount links) ++
            " links with zero or negative values"] else [])) := by
  constructor
  · match data with
    | ⟨some nodes, some links⟩ =>
      simp only [validateSankeyData]
      rw [beq_zero_iff_nil]
    | ⟨none, _⟩ => simp [validateSankeyData]
    | ⟨some _, none⟩ => simp [validateSankeyData]
  · intro nodes links hdata
    subst hdata
    simp only [validateSankeyData, orphanedCount, danglingCount, selfLoopCount,
      nonPositiveCount]
    constructor
    · simp
    · simp [List.append_assoc]

/-- A one-node graph with a self-loop of non-positive value, used as the
validator witness input. -/
def selfLoopInput : ValidateInput :=
  { nodes := some [{ name := "A" }],
    links := some [{ source := "A", target := "A", value := -1 }] }

/-- Witness for `validateSankeyData_sound` on a one-node graph with a
self-loop of non-positive value. -/
theorem validateSankeyData_sound_witness :
    (validateSankeyData selfLoopInput).warnings =
      ["Found 1 self-referencing links"] ∧
    (validateSankeyData selfLoopInput).errors =
      ["Found 1 links with zero or negative values"] := by
  have h := (validateSankeyData_sound selfLoopInput).2 _ _ rfl
  constructor
  · rw [h.1]; decide
  · rw [h.2]; decide

/-! ## Aggregation -/

theorem alGet_mem {α : Type} {m : List (String × α)} {k : String} {v : α}
    (h : alGet m k = some v) : (k, v) ∈ m := by
  induction m with
  | nil => simp [alGet] at h
  | cons p rest ih =>
    by_cases hp : p.1 = k
    · rw [alGet, if_pos hp] at h
      rw [Option.some.injEq] at h
      have hpe : (k, v) = p := by rw [← hp, ← h]
      rw [hpe]
      exact List.mem_cons_self _ _
    · rw [alGet, if_neg hp] at h
      exact List.mem_cons_of_mem _ (ih h)

theorem alKeys_alSet_of_not_mem {α : Type} (m : List (String × α)) (k : String)
    (v : α) (h : alGet m k = none) : alKeys (alSet m k v) = alKeys m ++ [k] := by
  induction m with
  | nil => simp [alKeys, alSet]
  | cons p rest ih =>
    by_cases hp : p.1 = k
    · rw [alGet, if_pos hp] at h
      simp at h
    · rw [alGet, if_neg hp] at h
      simp only [alSet, if_neg hp, alKeys, List.map_cons, List.cons_append,
        List.cons.injEq, true_and]
      exact ih h

theorem alSet_eq_append {α : Type} (m : List (String × α)) (k : String) (v : α)
    (h : alGet m k = none) : alSet m k v = m ++ [(k, v)] := by
  induction m with
  | nil => simp [alSet]
  | cons p rest ih =>
    by_cases hp : p.1 = k
    · rw [alGet, if_pos hp] at h
      simp at h
    · rw [alGet, if_neg hp] at h
      simp only [alSet, if_neg hp, List.cons_append, List.cons.injEq, true_and]
      exact ih h

theorem mem_alSet_of_nodup {α : Type} {m : List (String × α)} {k : String}
    {v : α} (hnd : (alKeys m).Nodup) {e : String × α} (he : e ∈ alSet m k v) :
    e = (k, v) ∨ (e ∈ m ∧ e.1 ≠ k) := by
  induction m with
  | nil =>
    simp only [alSet, List.mem_singleton] at he
    exact Or.inl he
  | cons p rest ih =>
    simp only [alKeys, List.map_cons, List.nodup_cons] at hnd
    by_cases hp : p.1 = k
    · rw [alSet, if_pos hp] at he
      rcases List.mem_cons.mp he with h1 | h2
      · exact Or.inl h1
      · refine Or.inr ⟨List.mem_cons_of_mem _ h2, ?_⟩
        intro hek
        apply hnd.1
        rw [hp, ← hek]
        exact List.mem_map.mpr ⟨e, h2, rfl⟩
    · rw [alSet, if_neg hp] at he
      rcases List.mem_cons.mp he with h1 | h2
      · subst h1
        exact Or.inr ⟨List.mem_cons_self _ _, hp⟩
      · rcases ih (by simpa [alKeys] using hnd.2) h2 with h3 | h4
        · exact Or.inl h3
        · exact Or.inr ⟨List.mem_cons_of_mem _ h4.1, h4.2⟩

/-- The number of input links grouped under key `k`. -/
def cntKey (ls : List SankeyLink) (k : String) : Nat :=
  (ls.filter (fun l => linkKey l = k)).length

/-- The total value of the input links grouped under key `k`. -/
def sumKey (ls : List SankeyLink) (k : String) : Int :=
  ((ls.filter (fun l => linkKey l = k)).map (fun l => l.value)).sum

/-- The number of input links with the ordered endpoint pair `(s, t)`. -/
def cntPair (ls : List SankeyLink) (s t : String) : Nat :=
  (ls.filter (fun l => l.source = s ∧ l.target = t)).length

/-- The total value of the input links with the ordered endpoint pair
`(s, t)`. -/
def sumPair (ls : List SankeyLink) (s t : String) : Int :=
  ((ls.filter (fun l => l.source = s ∧ l.target = t)).map (fun l => l.value)).sum

theorem cntKey_append_singleton (p : List SankeyLink) (l : SankeyLink) (k : String) :
    cntKey (p ++ [l]) k = cntKey p k + (if linkKey l = k then 1 else 0) := by
  unfold cntKey
  rw [List.filter_append, List.length_append]
  by_cases h : linkKey l = k
  · simp [h]
  · simp [h]

theorem sumKey_append_singleton (p : List SankeyLink) (l : SankeyLink) (k : String) :
    sumKey (p ++ [l]) k = sumKey p k + (if linkKey l = k then l.value else 0) := by
  unfold sumKey
  rw [List.filter_append, List.map_append, List.sum_append]
  by_cases h : linkKey l = k
  · simp [h]
  · simp [h]

theorem sumKey_eq_zero_of_cntKey {p : List SankeyLink} {k : String}
    (h : cntKey p k = 0) : sumKey p k = 0 := by
  unfold cntKey at h
  unfold sumKey
  rw [List.length_eq_zero.mp h]
  rfl

/-- Invariant of the aggregation loop after consuming the prefix `p`. -/
def AggInv (p : List SankeyLink) (m : List (String × SankeyLink)) : Prop :=
  (alKeys m).Nodup ∧
  (∀ e ∈ m, linkKey e.2 = e.1) ∧
  (∀ e ∈ m, e.2.value = sumKey p e.1) ∧
  (∀ e ∈ m, ∃ l ∈ p, l.source = e.2.source ∧ l.target = e.2.target) ∧
  (∀ k, alGet m k = none → cntKey p k = 0)

theorem aggInv_step (p : List SankeyLink) (m : List (String × SankeyLink))
    (link : SankeyLink) (h : AggInv p m) :
    AggInv (p ++ [link])
      (match alGet m (linkKey link) with
       | some existing =>
         alSet m (linkKey link) { existing with value := existing.value + link.value }
       | none => alSet m (linkKey link) link) := by
  obtain ⟨hnd, hkey, hval, hpair, hnone⟩ := h
  cases hg : alGet m (linkKey link) with
  | some existing =>
    have hmem : (linkKey link, existing) ∈ m := alGet_mem hg
    have hsome : (alGet m (linkKey link)).isSome := by rw [hg]; rfl
    refine ⟨?_, ?_, ?_, ?_, ?_⟩
    · rw [alKeys_alSet_of_mem _ _ _ hsome]; exact hnd
    · intro e he
      rcases mem_alSet_of_nodup hnd he with h1 | h2
      · subst h1
        have := hkey _ hmem
        simpa [linkKey] using this
      · exact hkey _ h2.1
    · intro e he
      rcases mem_alSet_of_nodup hnd he with h1 | h2
      · subst h1
        rw [sumKey_append_singleton, if_pos rfl]
        have hv := hval _ hmem
        show existing.value + link.value = sumKey p (linkKey link) + link.value
        rw [hv]
      · rw [sumKey_append_singleton, if_neg (by
          intro hk
          exact h2.2 (by rw [← hk]))]
        simp only [add_zero]
        exact hval _ h2.1
    · intro e he
      rcases mem_alSet_of_nodup hnd he with h1 | h2
      · subst h1
        obtain ⟨l, hl, hsl⟩ := hpair _ hmem
        exact ⟨l, List.mem_append_left _ hl, hsl⟩
      · obtain ⟨l, hl, hsl⟩ := hpair _ h2.1
        exact ⟨l, List.mem_append_left _ hl, hsl⟩
    · intro k hk
      have hkne : k ≠ linkKey link := by
        intro hkk
        rw [hkk, alGet_alSet_self] at hk
        simp at hk
      rw [alGet_alSet_ne _ _ _ _ hkne] at hk
      rw [cntKey_append_singleton, if_neg (Ne.symm hkne), add_zero]
      exact hnone _ hk
  | none =>
    rw [alSet_eq_append _ _ _ hg]
    have hknotin : linkKey link ∉ alKeys m := by
      intro hin
      rw [← alGet_isSome_iff_mem_alKeys] at hin
      rw [hg] at hin
      simp at hin
    refine ⟨?_, ?_, ?_, ?_, ?_⟩
    · rw [alKeys, List.map_append]
      simp only [List.map_cons, List.map_nil]
      rw [List.nodup_append]
      exact ⟨hnd, List.nodup_singleton _, by simpa [alKeys] using hknotin⟩
    · intro e he
      rcases List.mem_append.mp he with h1 | h2
      · exact hkey _ h1
      · rw [List.mem_singleton] at h2
        subst h2
        rfl
    · intro e he
      rcases List.mem_append.mp he with h1 | h2
      · have hene : e.1 ≠ linkKey link := by
          intro hk
          exact hknotin (hk ▸ List.mem_map.mpr ⟨e, h1, rfl⟩)
        rw [sumKey_append_singleton, if_neg (Ne.symm hene), add_zero]
        exact hval _ h1
      · rw [List.mem_singleton] at h2
        subst h2
        simp only
        rw [sumKey_append_singleton, if_pos rfl,
          sumKey_eq_zero_of_cntKey (hnone _ hg), zero_add]
    · intro e he
      rcases List.mem_append.mp he with h1 | h2
      · obtain ⟨l, hl, hsl⟩ := hpair _ h1
        exact ⟨l, List.mem_append_left _ hl, hsl⟩
      · rw [List.mem_singleton] at h2
        subst h2
        exact ⟨link, List.mem_append_right _ (List.mem_singleton.mpr rfl), rfl, rfl⟩
    · intro k hk
      have hkne : k ≠ linkKey link := by
        intro hkk
        subst hkk
        rw [← alSet_eq_append _ _ _ hg, alGet_alSet_self] at hk
        simp at hk
      rw [← alSet_eq_append _ _ _ hg, alGet_alSet_ne _ _ _ _ hkne] at hk
      rw [cntKey_append_singleton, if_neg (Ne.symm hkne), add_zero]
      exact hnone _ hk

theorem aggLoop_invariant : ∀ (L p : List SankeyLink)
    (m : List (String × SankeyLink)), AggInv p m → AggInv (p ++ L) (aggLoop m L) := by
  intro L
  induction L with
  | nil => intro p m h; simpa using h
  | cons link rest ih =>
    intro p m h
    have hstep := aggInv_step p m link h
    have : p ++ link :: rest = (p ++ [link]) ++ rest := by simp
    rw [this]
    cases hg : alGet m (linkKey link) with
    | some existing =>
      rw [hg] at hstep
      simp only [aggLoop, hg]
      exact ih (p ++ [link]) _ hstep
    | none =>
      rw [hg] at hstep
      simp only [aggLoop, hg]
      exact ih (p ++ [link]) _ hstep

theorem aggInv_nil : AggInv [] [] := by
  refine ⟨List.nodup_nil, ?_, ?_, ?_, ?_⟩
  · intro e he; simp at he
  · intro e he; simp at he
  · intro e he; simp at he
  · intro k _; rfl

theorem aggregateLinks_invariant (links : List SankeyLink) :
    AggInv links (aggLoop [] links) := by
  have := aggLoop_invariant links [] [] aggInv_nil
  simpa using this

theorem alGet_append_of_none {α : Type} {m : List (String × α)}
    (m2 : List (String × α)) {k : String} (h : alGet m k = none) :
    alGet (m ++ m2) k = alGet m2 k := by
  induction m with
  | nil => rfl
  | cons p rest ih =>
    by_cases hp : p.1 = k
    · rw [alGet, if_pos hp] at h
      simp at h
    · rw [alGet, if_neg hp] at h
      rw [List.cons_append, alGet, if_neg hp]
      exact ih h

theorem aggLoop_fresh : ∀ (L : List SankeyLink) (m0 : List (String × SankeyLink)),
    (∀ l ∈ L, alGet m0 (linkKey l) = none) → (L.map linkKey).Nodup →
    aggLoop m0 L = m0 ++ L.map (fun l => (linkKey l, l)) := by
  intro L
  induction L with
  | nil => intro m0 _ _; simp [aggLoop]
  | cons link rest ih =>
    intro m0 hfresh hnd
    have hg : alGet m0 (linkKey link) = none := hfresh link (List.mem_cons_self _ _)
    simp only [aggLoop, hg]
    rw [alSet_eq_append _ _ _ hg]
    simp only [List.map_cons, List.nodup_cons] at hnd
    rw [ih (m0 ++ [(linkKey link, link)]) ?_ hnd.2]
    · simp
    · intro l hl
      rw [alGet_append_of_none _ (hfresh l (List.mem_cons_of_mem _ hl))]
      have hne : linkKey l ≠ linkKey link := by
        intro hkk
        exact hnd.1 (hkk ▸ List.mem_map.mpr ⟨l, hl, rfl⟩)
      rw [alGet, if_neg (Ne.symm hne)]
      rfl

theorem aggregateLinks_keys_nodup (links : List SankeyLink) :
    ((aggregateLinks links).map linkKey).Nodup := by
  obtain ⟨hnd, hkey, _, _, _⟩ := aggregateLinks_invariant links
  unfold aggregateLinks
  rw [List.map_map]
  have : (aggLoop [] links).map (linkKey ∘ fun p => p.2) =
      (aggLoop [] links).map (fun p => p.1) :=
    List.map_congr_left (fun e he => hkey e he)
  rw [this]
  exact hnd

/-- C9: `aggregateLinks` is idempotent — applied to its own output it
returns that output unchanged (same links, same order, same values). -/
theorem aggregateLinks_idempotent (links : List SankeyLink) :
    aggregateLinks (aggregateLinks links) = aggregateLinks links := by
  have hnd := aggregateLinks_keys_nodup links
  unfold aggregateLinks
  rw [aggLoop_fresh _ [] (fun l _ => rfl) (by simpa [aggregateLinks] using hnd)]
  simp [List.map_map, Function.comp]

/-! ## Aggregation over distinct pairs (C2) -/

/-- Whether a character list contains the two-character separator `->`. -/
def hasSep : List Char → Bool
  | a :: b :: rest => (a = '-' && b = '>') || hasSep (b :: rest)
  | _ => false

theorem hasSep_tail {c : Char} {l : List Char} (h : hasSep (c :: l) = false) :
    hasSep l = false := by
  cases l with
  | nil => rfl
  | cons b r =>
    simp only [hasSep, Bool.or_eq_false_iff] at h
    exact h.2

theorem sepKey_inj_chars : ∀ (s1 s2 t1 t2 : List Char),
    hasSep s1 = false → hasSep s2 = false →
    s1 ++ '-' :: '>' :: t1 = s2 ++ '-' :: '>' :: t2 → s1 = s2 ∧ t1 = t2 := by
  intro s1
  induction s1 with
  | nil =>
    intro s2 t1 t2 _ h2 heq
    cases s2 with
    | nil =>
      simp only [List.nil_append, List.cons.injEq, true_and] at heq
      exact ⟨rfl, heq⟩
    | cons c2 s2' =>
      simp only [List.nil_append, List.cons_append, List.cons.injEq] at heq
      obtain ⟨hc2, hrest⟩ := heq
      cases s2' with
      | nil =>
        simp only [List.nil_append, List.cons.injEq] at hrest
        exact absurd hrest.1 (by decide)
      | cons c2' s2'' =>
        simp only [List.cons_append, List.cons.injEq] at hrest
        obtain ⟨hc2', _⟩ := hrest
        rw [← hc2, ← hc2'] at h2
        simp [hasSep] at h2
  | cons c1 s1' ih =>
    intro s2 t1 t2 h1 h2 heq
    cases s2 with
    | nil =>
      simp only [List.cons_append, List.nil_append, List.cons.injEq] at heq
      obtain ⟨hc1, hrest⟩ := heq
      cases s1' with
      | nil =>
        simp only [List.nil_append, List.cons.injEq] at hrest
        exact absurd hrest.1 (by decide)
      | cons c1' s1'' =>
        simp only [List.cons_append, List.cons.injEq] at hrest
        obtain ⟨hc1', _⟩ := hrest
        rw [hc1, hc1'] at h1
        simp [hasSep] at h1
    | cons c2 s2' =>
      simp only [List.cons_append, List.cons.injEq] at heq
      obtain ⟨hc, hrest⟩ := heq
      obtain ⟨hs, ht⟩ := ih s2' t1 t2 (hasSep_tail h1) (hasSep_tail h2) hrest
      exact ⟨by rw [hc, hs], ht⟩

theorem sepKey_inj_strings {s1 t1 s2 t2 : String}
    (h1 : hasSep s1.data = false) (h2 : hasSep s2.data = false)
    (h : s1 ++ "->" ++ t1 = s2 ++ "->" ++ t2) : s1 = s2 ∧ t1 = t2 := by
  have hd : s1.data ++ '-' :: '>' :: t1.data = s2.data ++ '-' :: '>' :: t2.data := by
    have hcd := congrArg String.data h
    simpa [String.data_append, List.append_assoc] using hcd
  obtain ⟨hs, ht⟩ := sepKey_inj_chars _ _ _ _ h1 h2 hd
  exact ⟨String.ext hs, String.ext ht⟩

theorem cntPair_pos_iff (ls : List SankeyLink) (s t : String) :
    0 < cntPair ls s t ↔ ∃ l ∈ ls, l.source = s ∧ l.target = t := by
  unfold cntPair
  rw [List.length_pos]
  constructor
  · intro h
    obtain ⟨x, hx⟩ := List.exists_mem_of_ne_nil _ h
    have := List.mem_filter.mp hx
    exact ⟨x, this.1, by simpa using this.2⟩
  · rintro ⟨l, hl, hs, ht⟩ hnil
    have : l ∈ ls.filter (fun l => decide (l.source = s ∧ l.target = t)) :=
      List.mem_filter.mpr ⟨hl, by simp [hs, ht]⟩
    rw [hnil] at this
    simp at this

theorem filter_key_length_one {m : List (String × SankeyLink)} {k : String}
    {v : SankeyLink} (hnd : (alKeys m).Nodup) (hmem : (k, v) ∈ m) :
    (m.filter (fun e => e.1 = k)).length = 1 := by
  induction m with
  | nil => simp at hmem
  | cons p rest ih =>
    simp only [alKeys, List.map_cons, List.nodup_cons] at hnd
    by_cases hp : p.1 = k
    · have hrest : rest.filter (fun e => e.1 = k) = [] := by
        apply List.filter_eq_nil_iff.mpr
        intro e he hek
        apply hnd.1
        rw [hp]
        simp only [decide_eq_true_eq] at hek
        rw [← hek]
        exact List.mem_map.mpr ⟨e, he, rfl⟩
      rw [List.filter_cons_of_pos (by simp [hp]), List.length_cons, hrest]
      rfl
    · rcases List.mem_cons.mp hmem with h1 | h2
      · rw [← h1] at hp
        simp at hp
      · rw [List.filter_cons_of_neg (by simp [hp])]
        exact ih (by simpa [alKeys] using hnd.2) h2

/-- The claim "aggregation groups by the ordered endpoint pair": exactly
one output link per pair occurring in the input, none for absent pairs,
and each output link's value is the sum over its own pair. -/
def pairAggregationSpec (links : List SankeyLink) : Prop :=
  (∀ s t, 0 < cntPair links s t → cntPair (aggregateLinks links) s t = 1) ∧
  (∀ s t, cntPair links s t = 0 → cntPair (aggregateLinks links) s t = 0) ∧
  (∀ out ∈ aggregateLinks links,
    out.value = sumPair links out.source out.target)

/-- Two links with distinct ordered pairs whose `` `${source}->${target}` ``
keys collide. -/
def collisionLinks : List SankeyLink :=
  [{ source := "a->b", target := "c", value := 1 },
   { source := "a", target := "b->c", value := 2 }]

/-- C2 is false as stated ("for all label strings"): grouping uses the
string `` `${source}->${target}` ``, so the distinct pairs
`("a->b", "c")` and `("a", "b->c")` collide and are merged into a single
link of value `3`. -/
theorem aggregateLinks_pair_counterexample :
    ¬ pairAggregationSpec collisionLinks := by
  intro h
  have h1 := h.1 "a" "b->c" (by decide)
  have h2 : cntPair (aggregateLinks collisionLinks) "a" "b->c" = 0 := by decide
  rw [h1] at h2
  simp at h2

/-- C2 (amended): provided no source label contains the separator `->`,
`aggregateLinks` returns exactly one link per distinct ordered
`(source, target)` pair occurring in the input (and none for pairs that do
not occur, so distinct pairs — including reversed ones — are never
merged), and each output link's value is the sum of the values of exactly
the input links carrying its pair. -/
theorem aggregateLinks_pair_spec (links : List SankeyLink)
    (hsep : ∀ lk ∈ links, hasSep lk.source.data = false) :
    pairAggregationSpec links := by
  obtain ⟨hnd, hkey, hval, hpairs, hnone⟩ := aggregateLinks_invariant links
  have houtPair : ∀ e ∈ aggLoop [] links, ∃ l ∈ links,
      l.source = e.2.source ∧ l.target = e.2.target := hpairs
  -- counting output links with a given pair is counting map entries
  have hcount : ∀ s t, cntPair (aggregateLinks links) s t =
      ((aggLoop [] links).filter
        (fun e => e.2.source = s ∧ e.2.target = t)).length := by
    intro s t
    unfold cntPair aggregateLinks
    rw [List.filter_map, List.length_map]
    rfl
  refine ⟨?_, ?_, ?_⟩
  · intro s t hpos
    obtain ⟨l0, hl0, hs0, ht0⟩ := (cntPair_pos_iff links s t).mp hpos
    have hssep : hasSep s.data = false := hs0 ▸ hsep l0 hl0
    have hkl0 : linkKey l0 = s ++ "->" ++ t := by
      unfold linkKey
      rw [hs0, ht0]
    -- the key is present in the final map
    have hget : alGet (aggLoop [] links) (s ++ "->" ++ t) ≠ none := by
      intro hg
      have h0 := hnone _ hg
      unfold cntKey at h0
      have : l0 ∈ links.filter (fun l => decide (linkKey l = s ++ "->" ++ t)) :=
        List.mem_filter.mpr ⟨hl0, by simp [hkl0]⟩
      rw [List.length_eq_zero.mp h0] at this
      simp at this
    obtain ⟨v, hv⟩ := Option.ne_none_iff_exists'.mp hget
    have hvmem : (s ++ "->" ++ t, v) ∈ aggLoop [] links := alGet_mem hv
    rw [hcount]
    have hfe : (aggLoop [] links).filter
        (fun e => decide (e.2.source = s ∧ e.2.target = t)) =
        (aggLoop [] links).filter (fun e => decide (e.1 = s ++ "->" ++ t)) := by
      apply List.filter_congr
      intro e he
      simp only [decide_eq_decide]
      constructor
      · rintro ⟨hes, het⟩
        rw [← hkey e he]
        unfold linkKey
        rw [hes, het]
      · intro hek
        have hlk : linkKey e.2 = s ++ "->" ++ t := by rw [hkey e he, hek]
        obtain ⟨l, hl, hls, hlt⟩ := houtPair e he
        have hesep : hasSep e.2.source.data = false := hls ▸ hsep l hl
        exact sepKey_inj_strings hesep hssep hlk
    rw [hfe]
    exact filter_key_length_one hnd hvmem
  · intro s t hzero
    rw [hcount]
    rw [List.filter_eq_nil_iff.mpr ?_]
    · rfl
    · intro e he hpred
      simp only [decide_eq_true_eq] at hpred
      obtain ⟨l, hl, hls, hlt⟩ := houtPair e he
      have : 0 < cntPair links s t := (cntPair_pos_iff links s t).mpr
        ⟨l, hl, by rw [hls, hpred.1], by rw [hlt, hpred.2]⟩
      exact absurd hzero (by intro hz; rw [hz] at this; simp at this)
  · intro out hout
    unfold aggregateLinks at hout
    obtain ⟨e, he, heo⟩ := List.mem_map.mp hout
    obtain ⟨l1, hl1, hl1s, hl1t⟩ := houtPair e he
    have hv := hval e he
    have hk := hkey e he
    have hosep : hasSep out.source.data = false := by
      rw [← heo, ← hl1s]; exact hsep l1 hl1
    have hsk : sumKey links e.1 = sumPair links out.source out.target := by
      unfold sumKey sumPair
      have hfl : links.filter (fun l => decide (linkKey l = e.1)) =
          links.filter (fun l =>
            decide (l.source = out.source ∧ l.target = out.target)) := by
        apply List.filter_congr
        intro l hl
        simp only [decide_eq_decide]
        constructor
        · intro hlk
          have : linkKey l = linkKey out := by
            rw [hlk, ← hk, heo]
          exact sepKey_inj_strings (hsep l hl) hosep this
        · rintro ⟨hls, hlt⟩
          rw [← hk, heo]
          unfold linkKey
          rw [hls, hlt]
      rw [hfl]
    rw [← heo, hv, hsk, heo]

/-- The provisional edges of the spec's Scenario A. -/
def scenarioALinks : List SankeyLink :=
  [{ source := "A", target := "B", value := 10 },
   { source := "A", target := "B", value := 5 },
   { source := "B", target := "C", value := 3 }]

/-- Witness for `aggregateLinks_pair_spec` at the spec's Scenario A links
(`A→B:10`, `A→B:5`, `B→C:3`). -/
theorem aggregateLinks_pair_spec_witness :
    cntPair (aggregateLinks scenarioALinks) "A" "B" = 1 ∧
    cntPair (aggregateLinks scenarioALinks) "B" "A" = 0 := by
  have h := aggregateLinks_pair_spec scenarioALinks (by decide)
  exact ⟨h.1 "A" "B" (by decide), h.2.1 "B" "A" (by decide)⟩

/-! ## Node layering: basic shape of the BFS state -/

theorem mem_alSet_weak {α : Type} {m : List (String × α)} {k : String} {v : α}
    {e : String × α} (he : e ∈ alSet m k v) : e = (k, v) ∨ e ∈ m := by
  induction m with
  | nil =>
    simp only [alSet, List.mem_singleton] at he
    exact Or.inl he
  | cons p rest ih =>
    by_cases hp : p.1 = k
    · rw [alSet, if_pos hp] at he
      rcases List.mem_cons.mp he with h1 | h2
      · exact Or.inl h1
      · exact Or.inr (List.mem_cons_of_mem _ h2)
    · rw [alSet, if_neg hp] at he
      rcases List.mem_cons.mp he with h1 | h2
      · exact Or.inr (h1 ▸ List.mem_cons_self _ _)
      · rcases ih h2 with h3 | h4
        · exact Or.inl h3
        · exact Or.inr (List.mem_cons_of_mem _ h4)

theorem map_alSet_of_agree {α β : Type} (f : String × α → β)
    {m : List (String × α)} {k : String} {v v' : α} (hg : alGet m k = some v)
    (hf : f (k, v') = f (k, v)) : (alSet m k v').map f = m.map f := by
  induction m with
  | nil => simp [alGet] at hg
  | cons p rest ih =>
    by_cases hp : p.1 = k
    · rw [alGet, if_pos hp] at hg
      rw [Option.some.injEq] at hg
      rw [alSet, if_pos hp]
      simp only [List.map_cons]
      congr 1
      rw [hf, ← hg, ← hp]
    · rw [alGet, if_neg hp] at hg
      rw [alSet, if_neg hp]
      simp only [List.map_cons, List.cons.injEq, true_and]
      exact ih hg

/-- `relaxLinks` only appends to the pending queue. -/
theorem relaxLinks_next_extends (name : String) (visited : List String) :
    ∀ (ls : List SankeyLink) (inDeg : List (String × Int)) (next : List String),
      ∃ extra, (relaxLinks name visited inDeg next ls).2 = next ++ extra := by
  intro ls
  induction ls with
  | nil => intro inDeg next; exact ⟨[], by simp [relaxLinks]⟩
  | cons link rest ih =>
    intro inDeg next
    by_cases hs : link.source = name
    · rw [relaxLinks, if_pos hs]
      by_cases hc : (alGet inDeg link.target).getD 0 - 1 = 0 ∧
          ¬ visited.contains link.target
      · rw [if_pos hc]
        obtain ⟨extra, hex⟩ := ih (alSet inDeg link.target
          ((alGet inDeg link.target).getD 0 - 1)) (next ++ [link.target])
        exact ⟨link.target :: extra, by rw [hex]; simp⟩
      · rw [if_neg hc]
        exact ih _ next
    · rw [relaxLinks, if_neg hs]
      exact ih inDeg next

/-- The possible shapes of one dequeue step: either a no-op on the state
and queue, or a visit of an unvisited mapped node. -/
theorem processNode_cases (links : List SankeyLink) (depth : Int)
    (st : BfsState) (next : List String) (name : String) :
    (processNode links depth st next name = (st, next)) ∨
    (∃ node, alGet st.nodeMap name = some node ∧
      st.visited.contains name = false ∧
      (processNode links depth st next name).1.nodeMap =
        alSet st.nodeMap name { node with depth := some depth } ∧
      (processNode links depth st next name).1.visited = st.visited ++ [name] ∧
      ∃ extra, (processNode links depth st next name).2 = next ++ extra) := by
  cases hg : alGet st.nodeMap name with
  | none =>
    left
    simp only [processNode, hg]
  | some node =>
    by_cases hv : st.visited.contains name
    · left
      simp only [processNode, hg]
      rw [if_pos hv]
    · right
      refine ⟨node, rfl, by simpa using hv, ?_, ?_, ?_⟩
      · simp only [processNode, hg]
        rw [if_neg hv]
      · simp only [processNode, hg]
        rw [if_neg hv]
      · simp only [processNode, hg]
        rw [if_neg hv]
        exact relaxLinks_next_extends name (st.visited ++ [name]) links st.inDeg next

/-- Every node-map entry carries a defined non-negative depth. -/
def DepthsDefined (m : List (String × SankeyNode)) : Prop :=
  ∀ e ∈ m, ∃ d : Int, e.2.depth = some d ∧ 0 ≤ d

theorem depthsDefined_initNodeMap (nodes : List SankeyNode) :
    DepthsDefined (initNodeMap nodes) := by
  unfold initNodeMap
  suffices h : ∀ (l : List SankeyNode) (m0 : List (String × SankeyNode)),
      DepthsDefined m0 →
      DepthsDefined (l.foldl
        (fun m node => alSet m node.name { node with depth := some 0 }) m0) by
    exact h nodes [] (by intro e he; simp at he)
  intro l
  induction l with
  | nil => intro m0 h; exact h
  | cons node rest ih =>
    intro m0 h
    simp only [List.foldl_cons]
    apply ih
    intro e he
    rcases mem_alSet_weak he with h1 | h2
    · subst h1
      exact ⟨0, rfl, le_refl 0⟩
    · exact h e h2

theorem depthsDefined_processNode (links : List SankeyLink) (depth : Int)
    (st : BfsState) (next : List String) (name : String) (hd : 0 ≤ depth)
    (h : DepthsDefined st.nodeMap) :
    DepthsDefined (processNode links depth st next name).1.nodeMap := by
  rcases processNode_cases links depth st next name with h1 | ⟨node, _, _, hnm, _, _⟩
  · rw [h1]
    exact h
  · rw [hnm]
    intro e he
    rcases mem_alSet_weak he with h1 | h2
    · subst h1
      exact ⟨depth, rfl, hd⟩
    · exact h e h2

theorem depthsDefined_processWave (links : List SankeyLink) (depth : Int)
    (hd : 0 ≤ depth) :
    ∀ (q : List String) (st : BfsState) (next : List String),
      DepthsDefined st.nodeMap →
      DepthsDefined (processWave links depth st q next).1.nodeMap := by
  intro q
  induction q with
  | nil => intro st next h; exact h
  | cons name rest ih =>
    intro st next h
    simp only [processWave]
    exact ih _ _ (depthsDefined_processNode links depth st next name hd h)

theorem depthsDefined_bfs (links : List SankeyLink) :
    ∀ (fuel : Nat) (st : BfsState) (q : List String) (depth : Int),
      0 ≤ depth → DepthsDefined st.nodeMap →
      DepthsDefined (bfs links fuel st q depth).nodeMap := by
  intro fuel
  induction fuel with
  | zero =>
    intro st q depth _ h
    cases q with
    | nil => exact h
    | cons a as => exact h
  | succ f ih =>
    intro st q depth hd h
    cases q with
    | nil => exact h
    | cons a as =>
      simp only [bfs]
      exact ih _ _ (depth + 1) (by omega)
        (depthsDefined_processWave links depth hd (a :: as) st [] h)

/-- C7: every node returned by `calculateNodeDepths` has a defined,
non-negative depth — nodes the BFS never dequeues (cycle members and
nodes behind them) keep the deterministic fallback depth `0` from the
map's initialisation, and the whole computation is a pure function of its
input, hence deterministic. -/
theorem calculateNodeDepths_depths_defined (nodes : List SankeyNode)
    (links : List SankeyLink) :
    ∀ node ∈ calculateNodeDepths nodes links,
      ∃ d : Int, node.depth = some d ∧ 0 ≤ d := by
  intro node hnode
  unfold calculateNodeDepths at hnode
  obtain ⟨e, he, heo⟩ := List.mem_map.mp hnode
  have hdef : DepthsDefined (depthsFinalState nodes links).nodeMap := by
    unfold depthsFinalState
    exact depthsDefined_bfs links _ _ _ 0 (le_refl 0)
      (depthsDefined_initNodeMap nodes)
  obtain ⟨d, hdep, hge⟩ := hdef e he
  exact ⟨d, heo ▸ hdep, hge⟩

/-- The nodes of the spec's Scenario A. -/
def scenarioANodes : List SankeyNode :=
  [{ name := "A" }, { name := "B" }, { name := "C" }]

/-- The aggregated links of the spec's Scenario A. -/
def scenarioAAggLinks : List SankeyLink :=
  [{ source := "A", target := "B", value := 15 },
   { source := "B", target := "C", value := 3 }]

/-- Witness for `calculateNodeDepths_depths_defined` at Scenario A (node
`C` ends at depth `2`). -/
theorem calculateNodeDepths_depths_defined_witness :
    ∃ d : Int,
      ({ name := "C", depth := some 2 } : SankeyNode).depth = some d ∧ 0 ≤ d :=
  calculateNodeDepths_depths_defined scenarioANodes scenarioAAggLinks
    { name := "C", depth := some 2 } (by decide)

/-! ## Node layering: the frame property (C10) -/

/-- A node with its depth forgotten: what `calculateNodeDepths` must keep
unchanged. -/
def stripDepth (node : SankeyNode) : SankeyNode := { node with depth := none }

/-- A node-map entry with its depth forgotten. -/
def stripEntry (e : String × SankeyNode) : String × SankeyNode :=
  (e.1, stripDepth e.2)

theorem initNodeMap_fresh : ∀ (l : List SankeyNode)
    (m0 : List (String × SankeyNode)),
    (∀ n ∈ l, alGet m0 n.name = none) → (l.map (fun n => n.name)).Nodup →
    l.foldl (fun m node => alSet m node.name { node with depth := some 0 }) m0 =
      m0 ++ l.map (fun n => (n.name, { n with depth := some 0 })) := by
  intro l
  induction l with
  | nil => intro m0 _ _; simp
  | cons node rest ih =>
    intro m0 hfresh hnd
    have hg : alGet m0 node.name = none := hfresh node (List.mem_cons_self _ _)
    simp only [List.foldl_cons, List.map_cons, List.nodup_cons] at hnd ⊢
    rw [alSet_eq_append _ _ _ hg]
    rw [ih _ ?_ hnd.2]
    · simp
    · intro n hn
      rw [alGet_append_of_none _ (hfresh n (List.mem_cons_of_mem _ hn))]
      have hne : n.name ≠ node.name := by
        intro hk
        exact hnd.1 (hk ▸ List.mem_map.mpr ⟨n, hn, rfl⟩)
      rw [alGet, if_neg (Ne.symm hne)]
      rfl

theorem initNodeMap_eq_of_nodup (nodes : List SankeyNode)
    (h : (nodes.map (fun n => n.name)).Nodup) :
    initNodeMap nodes =
      nodes.map (fun n => (n.name, { n with depth := some 0 })) := by
  unfold initNodeMap
  rw [initNodeMap_fresh nodes [] (fun n _ => rfl) h]
  simp

theorem stripEntry_processNode (links : List SankeyLink) (depth : Int)
    (st : BfsState) (next : List String) (name : String) :
    (processNode links depth st next name).1.nodeMap.map stripEntry =
      st.nodeMap.map stripEntry := by
  rcases processNode_cases links depth st next name with h1 | ⟨node, hg, _, hnm, _, _⟩
  · rw [h1]
  · rw [hnm]
    exact map_alSet_of_agree stripEntry hg rfl

theorem stripEntry_processWave (links : List SankeyLink) (depth : Int) :
    ∀ (q : List String) (st : BfsState) (next : List String),
      (processWave links depth st q next).1.nodeMap.map stripEntry =
        st.nodeMap.map stripEntry := by
  intro q
  induction q with
  | nil => intro st next; rfl
  | cons name rest ih =>
    intro st next
    simp only [processWave]
    rw [ih]
    exact stripEntry_processNode links depth st next name

theorem stripEntry_bfs (links : List SankeyLink) :
    ∀ (fuel : Nat) (st : BfsState) (q : List String) (depth : Int),
      (bfs links fuel st q depth).nodeMap.map stripEntry =
        st.nodeMap.map stripEntry := by
  intro fuel
  induction fuel with
  | zero =>
    intro st q depth
    cases q with
    | nil => rfl
    | cons a as => rfl
  | succ f ih =>
    intro st q depth
    cases q with
    | nil => rfl
    | cons a as =>
      simp only [bfs]
      rw [ih]
      exact stripEntry_processWave links depth (a :: as) st []

/-- C10: on a node list with pairwise-distinct names,
`calculateNodeDepths` returns exactly one node per input node, in input
order, with every field other than `depth` unchanged. -/
theorem calculateNodeDepths_frame (nodes : List SankeyNode)
    (links : List SankeyLink) (h : (nodes.map (fun n => n.name)).Nodup) :
    (calculateNodeDepths nodes links).map stripDepth = nodes.map stripDepth := by
  unfold calculateNodeDepths
  have h1 : ((depthsFinalState nodes links).nodeMap.map (fun p => p.2)).map
      stripDepth =
      ((depthsFinalState nodes links).nodeMap.map stripEntry).map (fun p => p.2) := by
    rw [List.map_map, List.map_map]
    rfl
  rw [h1]
  unfold depthsFinalState
  rw [stripEntry_bfs]
  simp only [initState]
  rw [initNodeMap_eq_of_nodup nodes h]
  rw [List.map_map, List.map_map]
  rfl

/-- Witness for `calculateNodeDepths_frame` at Scenario A. -/
theorem calculateNodeDepths_frame_witness :
    (calculateNodeDepths scenarioANodes scenarioAAggLinks).map stripDepth =
      scenarioANodes.map stripDepth :=
  calculateNodeDepths_frame scenarioANodes scenarioAAggLinks (by decide)

/-! ## Node layering: the wave fuel is irrelevant

Every wave that produces a nonempty next queue visits at least one
unvisited mapped node, so the number of waves is bounded by the number of
nodes; `bfs` run with any fuel above that bound — in particular the
`nodes.length + 1` used by `calculateNodeDepths` — computes the fixpoint
of the source's unbounded `while` loop. -/

/-- The number of mapped names not yet visited. -/
def unvisitedCount (st : BfsState) : Nat :=
  ((alKeys st.nodeMap).filter (fun n => ! st.visited.contains n)).length

theorem filter_length_mono {α : Type} (l : List α) {p q : α → Bool}
    (h : ∀ x, p x = true → q x = true) :
    (l.filter p).length ≤ (l.filter q).length := by
  induction l with
  | nil => exact le_refl 0
  | cons a rest ih =>
    by_cases hp : p a
    · rw [List.filter_cons_of_pos hp, List.filter_cons_of_pos (h a hp)]
      simpa using ih
    · rw [List.filter_cons_of_neg (by simpa using hp)]
      by_cases hq : q a
      · rw [List.filter_cons_of_pos hq]
        exact le_trans ih (by simp)
      · rw [List.filter_cons_of_neg (by simpa using hq)]
        exact ih

theorem contains_append (l1 l2 : List String) (x : String) :
    (l1 ++ l2).contains x = (l1.contains x || l2.contains x) := by
  induction l1 with
  | nil => rfl
  | cons a rest ih =>
    simp only [List.cons_append, List.contains_cons, ih, Bool.or_assoc]

theorem filter_visited_append_lt (keys : List String) (visited : List String)
    (k : String) (hk : k ∈ keys) (hv : visited.contains k = false) :
    (keys.filter (fun n => ! (visited ++ [k]).contains n)).length <
      (keys.filter (fun n => ! visited.contains n)).length := by
  induction keys with
  | nil => simp at hk
  | cons a rest ih =>
    have hmono : (rest.filter (fun n => ! (visited ++ [k]).contains n)).length ≤
        (rest.filter (fun n => ! visited.contains n)).length := by
      apply filter_length_mono
      intro x hx
      rw [contains_append] at hx
      simp only [Bool.not_eq_true', Bool.or_eq_false_iff] at hx
      rw [hx.1]
      rfl
    by_cases hak : a = k
    · subst hak
      have hnew : (! (visited ++ [a]).contains a) = false := by
        rw [contains_append]
        simp [List.contains_cons]
      have hold : (! visited.contains a) = true := by rw [hv]; rfl
      simp only [List.filter_cons, hnew, hold, Bool.false_eq_true, if_false,
        if_true, List.length_cons]
      omega
    · have h2 : k ∈ rest := (List.mem_cons.mp hk).resolve_left
        (fun h => hak h.symm)
      have hcond : ((visited ++ [k]).contains a) = (visited.contains a) := by
        rw [contains_append]
        have hsing : [k].contains a = false := by
          simp only [List.contains_cons, List.contains_nil, Bool.or_false,
            beq_eq_false_iff_ne, ne_eq]
          exact hak
        rw [hsing, Bool.or_false]
      have hih := ih h2
      by_cases ha : visited.contains a
      · have hnew2 : (! (visited ++ [k]).contains a) = false := by
          rw [hcond, ha]
          rfl
        have hold2 : (! visited.contains a) = false := by rw [ha]; rfl
        simp only [List.filter_cons, hnew2, hold2, Bool.false_eq_true, if_false]
        omega
      · have ha2 : visited.contains a = false := by simpa using ha
        have hnew2 : (! (visited ++ [k]).contains a) = true := by
          rw [hcond, ha2]
          rfl
        have hold2 : (! visited.contains a) = true := by rw [ha2]; rfl
        simp only [List.filter_cons, hnew2, hold2, if_true, List.length_cons]
        omega

theorem processNode_measure (links : List SankeyLink) (depth : Int)
    (st : BfsState) (next : List String) (name : String) :
    unvisitedCount (processNode links depth st next name).1 ≤ unvisitedCount st ∧
    ((processNode links depth st next name).2 ≠ next →
      unvisitedCount (processNode links depth st next name).1 < unvisitedCount st) := by
  rcases processNode_cases links depth st next name with h1 | ⟨node, hg, hv, hnm, hvis, _⟩
  · rw [h1]
    exact ⟨le_refl _, fun h => absurd rfl h⟩
  · have hkeys : alKeys (processNode links depth st next name).1.nodeMap =
        alKeys st.nodeMap := by
      rw [hnm]
      exact alKeys_alSet_of_mem _ _ _ (by rw [hg]; rfl)
    have hlt : unvisitedCount (processNode links depth st next name).1 <
        unvisitedCount st := by
      unfold unvisitedCount
      rw [hkeys, hvis]
      apply filter_visited_append_lt
      · exact (alGet_isSome_iff_mem_alKeys _ _).mp (by rw [hg]; rfl)
      · exact hv
    exact ⟨le_of_lt hlt, fun _ => hlt⟩

theorem processWave_measure (links : List SankeyLink) (depth : Int) :
    ∀ (q : List String) (st : BfsState) (next : List String),
      unvisitedCount (processWave links depth st q next).1 ≤ unvisitedCount st ∧
      ((processWave links depth st q next).2 ≠ next →
        unvisitedCount (processWave links depth st q next).1 < unvisitedCount st) := by
  intro q
  induction q with
  | nil =>
    intro st next
    exact ⟨le_refl _, fun h => absurd rfl h⟩
  | cons name rest ih =>
    intro st next
    simp only [processWave]
    obtain ⟨hple, hplt⟩ := processNode_measure links depth st next name
    obtain ⟨hwle, hwlt⟩ := ih (processNode links depth st next name).1
      (processNode links depth st next name).2
    refine ⟨le_trans hwle hple, ?_⟩
    intro hne
    by_cases hpn : (processNode links depth st next name).2 = next
    · exact lt_of_lt_of_le (hwlt (fun heq => hne (heq.trans hpn))) hple
    · exact lt_of_le_of_lt hwle (hplt hpn)

theorem bfs_nil (links : List SankeyLink) (f : Nat) (st : BfsState) (d : Int) :
    bfs links f st [] d = st := by
  cases f <;> rfl

theorem bfs_fuel_irrelevant (links : List SankeyLink) :
    ∀ (f : Nat) (g : Nat) (st : BfsState) (q : List String) (d : Int),
      unvisitedCount st < f → unvisitedCount st < g →
      bfs links f st q d = bfs links g st q d := by
  intro f
  induction f with
  | zero => intro g st q d hf _; omega
  | succ f ih =>
    intro g st q d hf hg
    cases q with
    | nil =>
      cases g with
      | zero => omega
      | succ g => rfl
    | cons a as =>
      cases g with
      | zero => omega
      | succ g =>
        simp only [bfs]
        obtain ⟨hle, hlt⟩ := processWave_measure links d (a :: as) st []
        cases hq : (processWave links d st (a :: as) []).2 with
        | nil => rw [bfs_nil, bfs_nil]
        | cons b bs =>
          have hstrict := hlt (by rw [hq]; simp)
          exact ih g _ _ _ (by omega) (by omega)

theorem alKeys_length_alSet {α : Type} (m : List (String × α)) (k : String)
    (v : α) : (alKeys (alSet m k v)).length ≤ (alKeys m).length + 1 := by
  cases hg : alGet m k with
  | some w =>
    rw [alKeys_alSet_of_mem _ _ _ (by rw [hg]; rfl)]
    omega
  | none =>
    rw [alKeys_alSet_of_not_mem _ _ _ hg]
    simp

theorem initNodeMap_keys_length (nodes : List SankeyNode) :
    (alKeys (initNodeMap nodes)).length ≤ nodes.length := by
  unfold initNodeMap
  suffices h : ∀ (l : List SankeyNode) (m0 : List (String × SankeyNode)),
      (alKeys (l.foldl
        (fun m node => alSet m node.name { node with depth := some 0 }) m0)).length ≤
        (alKeys m0).length + l.length by
    simpa [alKeys] using h nodes []
  intro l
  induction l with
  | nil => intro m0; simp
  | cons node rest ih =>
    intro m0
    simp only [List.foldl_cons, List.length_cons]
    calc (alKeys ((rest.foldl (fun m node =>
          alSet m node.name { node with depth := some 0 })
          (alSet m0 node.name { node with depth := some 0 })))).length ≤
        (alKeys (alSet m0 node.name { node with depth := some 0 })).length +
          rest.length := ih _
      _ ≤ (alKeys m0).length + 1 + rest.length := by
          have := alKeys_length_alSet m0 node.name
            ({ node with depth := some 0 })
          omega
      _ = (alKeys m0).length + (rest.length + 1) := by omega

/-- At most `nodes.length` names are ever unvisited. -/
theorem unvisitedCount_initState (nodes : List SankeyNode)
    (links : List SankeyLink) :
    unvisitedCount (initState nodes links) ≤ nodes.length :=
  le_trans (List.length_filter_le _ _) (initNodeMap_keys_length nodes)

/-- The fuel `nodes.length + 1` used by `calculateNodeDepths` is above the
wave bound: raising it further cannot change the result, so the fueled
`bfs` computes the source loop's fixpoint. -/
theorem depthsFinalState_fuel_irrelevant (nodes : List SankeyNode)
    (links : List SankeyLink) (f : Nat) (hf : nodes.length < f) :
    bfs links f (initState nodes links) (initQueue (initInDeg nodes links)) 0 =
      depthsFinalState nodes links := by
  unfold depthsFinalState
  have h := unvisitedCount_initState nodes links
  exact bfs_fuel_irrelevant links f (nodes.length + 1) _ _ 0 (by omega) (by omega)

/-! ## Node layering: the layering invariant (C3) -/

/-- The depth `calculateNodeDepths` assigns to a name. -/
def depthOf (nodes : List SankeyNode) (links : List SankeyLink) (n : String) :
    Option Int :=
  (alGet (depthsFinalState nodes links).nodeMap n).bind (fun node => node.depth)

/-- One directed step along an edge. -/
def linkStep (links : List SankeyLink) (a b : String) : Prop :=
  ∃ lk ∈ links, lk.source = a ∧ lk.target = b

instance (links : List SankeyLink) (a b : String) :
    Decidable (linkStep links a b) := by
  unfold linkStep; infer_instance

/-- The immediate successors of a name along the edges. -/
def succNames (links : List SankeyLink) (n : String) : List String :=
  (links.filter (fun lk => lk.source = n)).map (fun lk => lk.target)

/-- Iteratively expand a frontier with successors (enough iterations to
saturate any reachable set). -/
def reachExpand (links : List SankeyLink) : Nat → List String → List String
  | 0, front => front
  | k + 1, front =>
    reachExpand links k
      ((front ++ front.flatMap (succNames links)).dedup)

/-- All names reachable (in zero or more steps) from a starting set. -/
def reachableFrom (links : List SankeyLink) (start : List String) :
    List String :=
  reachExpand links (2 * links.length + 2) start

/-- A name lies on a cycle when it can reach itself in at least one
step. -/
def onCycle (links : List SankeyLink) (n : String) : Prop :=
  n ∈ reachableFrom links (succNames links n)

instance (links : List SankeyLink) (n : String) : Decidable (onCycle links n) := by
  unfold onCycle; infer_instance

/-- A name of the node collection with no incoming edge. -/
def zeroInDegree (nodes : List SankeyNode) (links : List SankeyLink)
    (n : String) : Prop :=
  n ∈ nodes.map (fun nd => nd.name) ∧ ∀ lk ∈ links, lk.target ≠ n

instance (nodes : List SankeyNode) (links : List SankeyLink) (n : String) :
    Decidable (zeroInDegree nodes links n) := by
  unfold zeroInDegree; infer_instance

/-- Consecutive names of a path are joined by an edge. -/
def pathChain (links : List SankeyLink) : List String → Bool
  | a :: b :: rest => decide (linkStep links a b) && pathChain links (b :: rest)
  | _ => true

/-- `t` is reachable from some zero-in-degree node along a duplicate-free
path that traverses no cycle member. -/
def acyclicReachable (nodes : List SankeyNode) (links : List SankeyLink)
    (t : String) : Prop :=
  ∃ p : List String, p ≠ [] ∧
    (∃ h, p.head? = some h ∧ zeroInDegree nodes links h) ∧
    p.getLast? = some t ∧ pathChain links p = true ∧ p.Nodup ∧
    ∀ n ∈ p, ¬ onCycle links n

/-- The layering invariant exactly as the specification states it. -/
def layeringClaim (nodes : List SankeyNode) (links : List SankeyLink) : Prop :=
  ∀ lk ∈ links, acyclicReachable nodes links lk.target →
    ∀ ds dt : Int, depthOf nodes links lk.source = some ds →
      depthOf nodes links lk.target = some dt → ds + 1 ≤ dt

/-- A cycle `A↔B` feeding `T`, which is also fed by the isolated root
`R`. -/
def cycleFedNodes : List SankeyNode :=
  [{ name := "R" }, { name := "A" }, { name := "B" }, { name := "T" }]

/-- Links of the cycle-fed counterexample graph. -/
def cycleFedLinks : List SankeyLink :=
  [{ source := "A", target := "B", value := 1 },
   { source := "B", target := "A", value := 1 },
   { source := "A", target := "T", value := 1 },
   { source := "R", target := "T", value := 1 }]

/-- C3 is false as stated: in `cycleFedNodes`/`cycleFedLinks` the node `T`
is reachable from the zero-in-degree node `R` by the cycle-free path
`R → T`, yet `T`'s in-degree also counts the edge from the cycle member
`A`, which the BFS never relieves, so `T` keeps the fallback depth `0`
while `depth(R) = 0`: the edge `R → T` violates `depth(T) ≥ depth(R)+1`. -/
theorem layeringClaim_counterexample : ¬ layeringClaim cycleFedNodes cycleFedLinks := by
  intro h
  have hmem : ({ source := "R", target := "T", value := 1 } : SankeyLink) ∈
      cycleFedLinks := by decide
  have hreach : acyclicReachable cycleFedNodes cycleFedLinks "T" := by
    refine ⟨["R", "T"], by decide, ⟨"R", by decide, by decide⟩, by decide,
      by decide, by decide, by decide⟩
  have h1 := h _ hmem hreach 0 0 (by decide) (by decide)
  omega

/-! ### In-degree accounting for the BFS invariant -/

/-- The in-degree map entry for `t`, read as the JS code reads it
(`inDegree.get(t) || 0`). -/
def inDegVal (st : BfsState) (t : String) : Int := (alGet st.inDeg t).getD 0

/-- The depth recorded in the node map for `n`. -/
def depthIn (st : BfsState) (n : String) : Option Int :=
  (alGet st.nodeMap n).bind (fun node => node.depth)

/-- The number of links into `t` whose source is not in `V`. -/
def inCnt (links : List SankeyLink) (V : List String) (t : String) : Nat :=
  (links.filter (fun lk => decide (lk.target = t) && ! V.contains lk.source)).length

/-- The number of links `name → t`. -/
def cntNT (ls : List SankeyLink) (name t : String) : Nat :=
  (ls.filter (fun lk => decide (lk.source = name) && decide (lk.target = t))).length

theorem length_filter_cons {α : Type} (p : α → Bool) (x : α) (l : List α) :
    (List.filter p (x :: l)).length =
      (if p x = true then 1 else 0) + (List.filter p l).length := by
  by_cases h : p x
  · rw [List.filter_cons_of_pos h, if_pos h, List.length_cons]
    omega
  · rw [List.filter_cons_of_neg (by simpa using h), if_neg (by simpa using h)]
    omega

theorem cntNT_cons (lk : SankeyLink) (rest : List SankeyLink) (name t : String) :
    cntNT (lk :: rest) name t =
      cntNT rest name t +
        (if lk.source = name ∧ lk.target = t then 1 else 0) := by
  unfold cntNT
  rw [length_filter_cons]
  by_cases h : lk.source = name ∧ lk.target = t
  · rw [if_pos (by simp [h.1, h.2]), if_pos h]
    omega
  · rw [if_neg (by simpa using h), if_neg h]
    omega

theorem not_mem_of_contains_false {l : List String} {x : String}
    (h : l.contains x = false) : x ∉ l := by
  intro hm
  have h2 : l.contains x = true := List.elem_iff.mpr hm
  rw [h2] at h
  exact absurd h (by simp)

theorem inCnt_cons (lk : SankeyLink) (rest : List SankeyLink) (V : List String)
    (t : String) :
    inCnt (lk :: rest) V t =
      inCnt rest V t +
        (if lk.target = t ∧ V.contains lk.source = false then 1 else 0) := by
  unfold inCnt
  rw [length_filter_cons]
  by_cases h : lk.target = t ∧ V.contains lk.source = false
  · rw [if_pos ?_, if_pos h]
    · omega
    · simp only [Bool.and_eq_true, decide_eq_true_eq, Bool.not_eq_true']
      exact h
  · rw [if_neg ?_, if_neg h]
    · omega
    · intro hb
      simp only [Bool.and_eq_true, decide_eq_true_eq, Bool.not_eq_true'] at hb
      exact h hb

theorem inCnt_append_name (links : List SankeyLink) (V : List String)
    (name : String) (hv : V.contains name = false) (t : String) :
    inCnt links V t = inCnt links (V ++ [name]) t + cntNT links name t := by
  induction links with
  | nil => rfl
  | cons lk rest ih =>
    rw [inCnt_cons, inCnt_cons, cntNT_cons]
    have hc : (V ++ [name]).contains lk.source =
        (V.contains lk.source || (lk.source == name)) := by
      rw [contains_append]
      congr 1
      simp only [List.contains_cons, List.contains_nil, Bool.or_false]
    by_cases h1 : lk.target = t
    · by_cases h2 : lk.source = name
      · have hb : V.contains lk.source = false := by rw [h2]; exact hv
        rw [if_pos ⟨h1, hb⟩, if_neg ?hA, if_pos ⟨h2, h1⟩]
        case hA =>
          rintro ⟨-, hvb⟩
          rw [hc, hb, h2] at hvb
          simp at hvb
        omega
      · by_cases hb : V.contains lk.source
        · rw [if_neg (by rw [hb]; rintro ⟨-, h⟩; exact absurd h (by simp)),
            if_neg ?hB, if_neg (by rintro ⟨h, -⟩; exact h2 h)]
          case hB =>
            rw [hc, hb]
            rintro ⟨-, h⟩
            exact absurd h (by simp)
          omega
        · have hb2 : V.contains lk.source = false := by simpa using hb
          have hC : (V ++ [name]).contains lk.source = false := by
            rw [hc, hb2]
            simp only [Bool.false_or, beq_eq_false_iff_ne, ne_eq]
            exact h2
          rw [if_pos ⟨h1, hb2⟩, if_pos ⟨h1, hC⟩,
            if_neg (by rintro ⟨h, -⟩; exact h2 h)]
          omega
    · rw [if_neg (by rintro ⟨h, -⟩; exact h1 h),
        if_neg (by rintro ⟨h, -⟩; exact h1 h),
        if_neg (by rintro ⟨-, h⟩; exact h1 h)]
      omega

theorem cntNT_le_inCnt (links : List SankeyLink) (V : List String)
    (name : String) (hv : V.contains name = false) (e : String) :
    cntNT links name e ≤ inCnt links V e := by
  apply filter_length_mono
  intro lk hlk
  simp only [Bool.and_eq_true, decide_eq_true_eq] at hlk ⊢
  refine ⟨hlk.2, ?_⟩
  rw [hlk.1, hv]
  rfl

theorem inCnt_zero_sources (links : List SankeyLink) (V : List String)
    (e : String) (h : inCnt links V e = 0) :
    ∀ lk ∈ links, lk.target = e → lk.source ∈ V := by
  intro lk hlk ht
  unfold inCnt at h
  have hf := List.filter_eq_nil_iff.mp (List.length_eq_zero.mp h) lk hlk
  simp only [Bool.and_eq_true, decide_eq_true_eq, Bool.not_eq_true',
    not_and] at hf
  have hne := hf ht
  rcases Bool.eq_false_or_eq_true (V.contains lk.source) with hb | hb
  · exact List.elem_iff.mp hb
  · exact absurd hb hne

theorem relaxLinks_val (name : String) (V : List String) :
    ∀ (ls : List SankeyLink) (inDeg : List (String × Int)) (nx : List String)
      (t : String),
      ((alGet (relaxLinks name V inDeg nx ls).1 t).getD 0) =
        (alGet inDeg t).getD 0 - (cntNT ls name t : Int) := by
  intro ls
  induction ls with
  | nil =>
    intro inDeg nx t
    unfold cntNT
    simp [relaxLinks]
  | cons lk rest ih =>
    intro inDeg nx t
    rw [cntNT_cons]
    by_cases hs : lk.source = name
    · simp only [relaxLinks]
      rw [if_pos hs]
      rw [ih]
      by_cases ht : t = lk.target
      · rw [ht, alGet_alSet_self]
        rw [if_pos ⟨hs, rfl⟩]
        simp only [Option.getD_some]
        push_cast
        omega
      · rw [alGet_alSet_ne _ _ _ _ ht]
        rw [if_neg (by rintro ⟨-, h⟩; exact ht h.symm)]
        push_cast
        omega
    · simp only [relaxLinks]
      rw [if_neg hs]
      rw [ih]
      rw [if_neg (by rintro ⟨h, -⟩; exact hs h)]
      push_cast
      omega

theorem relaxLinks_next_mem (name : String) (V : List String) :
    ∀ (ls : List SankeyLink) (inDeg : List (String × Int)) (nx : List String),
      ∀ e ∈ (relaxLinks name V inDeg nx ls).2,
        e ∈ nx ∨ ((alGet inDeg e).getD 0 ≤ (cntNT ls name e : Int)) := by
  intro ls
  induction ls with
  | nil =>
    intro inDeg nx e he
    exact Or.inl he
  | cons lk rest ih =>
    intro inDeg nx e he
    by_cases hs : lk.source = name
    · simp only [relaxLinks] at he
      rw [if_pos hs] at he
      rcases ih _ _ e he with h1 | h2
      · by_cases hc : (alGet inDeg lk.target).getD 0 - 1 = 0 ∧
            ¬ V.contains lk.target
        · rw [if_pos hc] at h1
          rcases List.mem_append.mp h1 with h3 | h4
          · exact Or.inl h3
          · rw [List.mem_singleton] at h4
            subst h4
            right
            rw [cntNT_cons, if_pos ⟨hs, rfl⟩]
            push_cast
            omega
        · rw [if_neg hc] at h1
          exact Or.inl h1
      · right
        rw [cntNT_cons]
        by_cases ht : e = lk.target
        · subst ht
          rw [alGet_alSet_self] at h2
          simp only [Option.getD_some] at h2
          rw [if_pos ⟨hs, rfl⟩]
          push_cast at h2 ⊢
          omega
        · rw [alGet_alSet_ne _ _ _ _ ht] at h2
          rw [if_neg (by rintro ⟨-, h⟩; exact ht h.symm)]
          push_cast at h2 ⊢
          omega
    · simp only [relaxLinks] at he
      rw [if_neg hs] at he
      rcases ih _ _ e he with h1 | h2
      · exact Or.inl h1
      · right
        rw [cntNT_cons, if_neg (by rintro ⟨h, -⟩; exact hs h)]
        push_cast at h2 ⊢
        omega

theorem processNode_skip_none (links : List SankeyLink) (depth : Int)
    (st : BfsState) (next : List String) (name : String)
    (hg : alGet st.nodeMap name = none) :
    processNode links depth st next name = (st, next) := by
  simp only [processNode, hg]

theorem processNode_skip_visited (links : List SankeyLink) (depth : Int)
    (st : BfsState) (next : List String) (name : String) (node : SankeyNode)
    (hg : alGet st.nodeMap name = some node)
    (hv : st.visited.contains name = true) :
    processNode links depth st next name = (st, next) := by
  simp only [processNode, hg]
  rw [if_pos hv]

theorem processNode_visit_eq (links : List SankeyLink) (depth : Int)
    (st : BfsState) (next : List String) (name : String) (node : SankeyNode)
    (hg : alGet st.nodeMap name = some node)
    (hv : st.visited.contains name = false) :
    processNode links depth st next name =
      ({ nodeMap := alSet st.nodeMap name { node with depth := some depth },
         visited := st.visited ++ [name],
         inDeg := (relaxLinks name (st.visited ++ [name]) st.inDeg next links).1 },
       (relaxLinks name (st.visited ++ [name]) st.inDeg next links).2) := by
  simp only [processNode, hg]
  rw [if_neg (by rw [hv]; exact Bool.false_ne_true)]

/-- The invariant carried across one wave of the BFS, at wave depth `d`
with wave-start visited set `V0`, current state `stm`, remaining wave
entries `q` and pending next-wave queue `nx`. -/
structure WaveInv (links : List SankeyLink) (V0 : List String) (d : Int)
    (stm : BfsState) (q : List String) (nx : List String) : Prop where
  w0 : ∀ n ∈ V0, ∃ dn, depthIn stm n = some dn ∧ dn < d
  w1 : ∀ n ∈ stm.visited, ∃ dn, depthIn stm n = some dn ∧ dn ≤ d
  w2 : ∀ t, inDegVal stm t = (inCnt links stm.visited t : Int)
  w3 : ∀ n ∈ q, ∀ lk ∈ links, lk.target = n → lk.source ∈ V0
  w4 : ∀ lk ∈ links, lk.target ∈ stm.visited → lk.source ∈ stm.visited ∧
        ∃ ds dt, depthIn stm lk.source = some ds ∧
          depthIn stm lk.target = some dt ∧ ds + 1 ≤ dt
  w5 : ∀ e ∈ nx, ∀ lk ∈ links, lk.target = e → lk.source ∈ stm.visited
  w6 : ∀ n ∈ V0, n ∈ stm.visited

theorem waveInv_step (links : List SankeyLink) (V0 : List String) (d : Int)
    (stm : BfsState) (nx : List String) (name : String) (q : List String)
    (hinv : WaveInv links V0 d stm (name :: q) nx) :
    WaveInv links V0 d (processNode links d stm nx name).1 q
      (processNode links d stm nx name).2 := by
  have hskip : processNode links d stm nx name = (stm, nx) →
      WaveInv links V0 d (processNode links d stm nx name).1 q
        (processNode links d stm nx name).2 := by
    intro heq
    rw [heq]
    exact ⟨hinv.w0, hinv.w1, hinv.w2,
      fun n hn => hinv.w3 n (List.mem_cons_of_mem _ hn), hinv.w4, hinv.w5,
      hinv.w6⟩
  cases hg : alGet stm.nodeMap name with
  | none => exact hskip (processNode_skip_none links d stm nx name hg)
  | some node =>
    rcases Bool.eq_false_or_eq_true (stm.visited.contains name) with hv | hv
    · exact hskip (processNode_skip_visited links d stm nx name node hg hv)
    · rw [processNode_visit_eq links d stm nx name node hg hv]
      have hnameV : name ∉ stm.visited := not_mem_of_contains_false hv
      have hdepth_ne : ∀ x, x ≠ name →
          depthIn { nodeMap := alSet stm.nodeMap name { node with depth := some d },
                    visited := stm.visited ++ [name],
                    inDeg := (relaxLinks name (stm.visited ++ [name]) stm.inDeg
                      nx links).1 } x = depthIn stm x := by
        intro x hx
        unfold depthIn
        simp only
        rw [alGet_alSet_ne _ _ _ _ hx]
      have hdepth_name :
          depthIn { nodeMap := alSet stm.nodeMap name { node with depth := some d },
                    visited := stm.visited ++ [name],
                    inDeg := (relaxLinks name (stm.visited ++ [name]) stm.inDeg
                      nx links).1 } name = some d := by
        unfold depthIn
        simp only
        rw [alGet_alSet_self]
        rfl
      refine ⟨?_, ?_, ?_, ?_, ?_, ?_, ?_⟩
      · intro n hn
        obtain ⟨dn, hdn, hlt⟩ := hinv.w0 n hn
        have hne : n ≠ name := fun h => hnameV (h ▸ hinv.w6 n hn)
        exact ⟨dn, by rw [hdepth_ne n hne]; exact hdn, hlt⟩
      · intro n hn
        simp only at hn
        rcases List.mem_append.mp hn with h1 | h2
        · obtain ⟨dn, hdn, hle⟩ := hinv.w1 n h1
          have hne : n ≠ name := fun h => hnameV (h ▸ h1)
          exact ⟨dn, by rw [hdepth_ne n hne]; exact hdn, hle⟩
        · rw [List.mem_singleton] at h2
          subst h2
          exact ⟨d, hdepth_name, le_refl d⟩
      · intro t
        unfold inDegVal
        simp only
        rw [relaxLinks_val]
        have h2 := hinv.w2 t
        unfold inDegVal at h2
        have h3 := inCnt_append_name links stm.visited name hv t
        rw [h2]
        omega
      · intro n hn
        exact hinv.w3 n (List.mem_cons_of_mem _ hn)
      · intro lk hlk htv
        simp only at htv
        rcases List.mem_append.mp htv with h1 | h2
        · obtain ⟨hsrc, ds, dt, hds, hdt, hle⟩ := hinv.w4 lk hlk h1
          have hsne : lk.source ≠ name := fun h => hnameV (h ▸ hsrc)
          have htne : lk.target ≠ name := fun h => hnameV (h ▸ h1)
          exact ⟨List.mem_append_left _ hsrc, ds, dt,
            by rw [hdepth_ne _ hsne]; exact hds,
            by rw [hdepth_ne _ htne]; exact hdt, hle⟩
        · rw [List.mem_singleton] at h2
          have hsrcV0 : lk.source ∈ V0 :=
            hinv.w3 name (List.mem_cons_self _ _) lk hlk h2
          have hsrcV : lk.source ∈ stm.visited := hinv.w6 _ hsrcV0
          have hsne : lk.source ≠ name := fun h => hnameV (h ▸ hsrcV)
          obtain ⟨ds, hds, hlt⟩ := hinv.w0 _ hsrcV0
          refine ⟨List.mem_append_left _ hsrcV, ds, d,
            by rw [hdepth_ne _ hsne]; exact hds,
            by rw [h2]; exact hdepth_name, by omega⟩
      · intro e he
        simp only at he
        rcases relaxLinks_next_mem name (stm.visited ++ [name]) links
            stm.inDeg nx e he with hold | hval
        · intro lk hlk htgt
          exact List.mem_append_left _ (hinv.w5 e hold lk hlk htgt)
        · have h2 := hinv.w2 e
          unfold inDegVal at h2
          have h1 : (inCnt links stm.visited e : Int) ≤ cntNT links name e := by
            rw [← h2]
            exact hval
          have h2b : cntNT links name e ≤ inCnt links stm.visited e :=
            cntNT_le_inCnt links stm.visited name hv e
          have h4 := inCnt_append_name links stm.visited name hv e
          have h3 : inCnt links (stm.visited ++ [name]) e = 0 := by
            push_cast at h1
            omega
          intro lk hlk htgt
          exact inCnt_zero_sources links (stm.visited ++ [name]) e h3 lk hlk htgt
      · intro n hn
        exact List.mem_append_left _ (hinv.w6 n hn)

theorem waveInv_processWave (links : List SankeyLink) (V0 : List String)
    (d : Int) : ∀ (q : List String) (stm : BfsState) (nx : List String),
    WaveInv links V0 d stm q nx →
    WaveInv links V0 d (processWave links d stm q nx).1 []
      (processWave links d stm q nx).2 := by
  intro q
  induction q with
  | nil =>
    intro stm nx h
    exact ⟨h.w0, h.w1, h.w2, by intro n hn; simp at hn, h.w4, h.w5, h.w6⟩
  | cons name rest ih =>
    intro stm nx h
    simp only [processWave]
    exact ih _ _ (waveInv_step links V0 d stm nx name rest h)

/-- The invariant carried between waves of the BFS. -/
structure BfsInv (links : List SankeyLink) (st : BfsState) (q : List String)
    (d : Int) : Prop where
  i1 : ∀ n ∈ st.visited, ∃ dn, depthIn st n = some dn ∧ dn < d
  i2 : ∀ t, inDegVal st t = (inCnt links st.visited t : Int)
  i3 : ∀ n ∈ q, ∀ lk ∈ links, lk.target = n → lk.source ∈ st.visited
  i4 : ∀ lk ∈ links, lk.target ∈ st.visited → lk.source ∈ st.visited ∧
        ∃ ds dt, depthIn st lk.source = some ds ∧
          depthIn st lk.target = some dt ∧ ds + 1 ≤ dt

theorem bfsInv_to_wave (links : List SankeyLink) (st : BfsState)
    (q : List String) (d : Int) (h : BfsInv links st q d) :
    WaveInv links st.visited d st q [] := by
  refine ⟨h.i1, ?_, h.i2, h.i3, h.i4, by intro e he; simp at he, fun n hn => hn⟩
  intro n hn
  obtain ⟨dn, hdn, hlt⟩ := h.i1 n hn
  exact ⟨dn, hdn, le_of_lt hlt⟩

theorem wave_to_bfsInv (links : List SankeyLink) (V0 : List String) (d : Int)
    (st : BfsState) (nx : List String) (h : WaveInv links V0 d st [] nx) :
    BfsInv links st nx (d + 1) := by
  refine ⟨?_, h.w2, h.w5, h.w4⟩
  intro n hn
  obtain ⟨dn, hdn, hle⟩ := h.w1 n hn
  exact ⟨dn, hdn, by omega⟩

theorem bfsInv_preserved (links : List SankeyLink) :
    ∀ (fuel : Nat) (st : BfsState) (q : List String) (d : Int),
      BfsInv links st q d →
      ∀ lk ∈ links, lk.target ∈ (bfs links fuel st q d).visited →
        lk.source ∈ (bfs links fuel st q d).visited ∧
        ∃ ds dt, depthIn (bfs links fuel st q d) lk.source = some ds ∧
          depthIn (bfs links fuel st q d) lk.target = some dt ∧ ds + 1 ≤ dt := by
  intro fuel
  induction fuel with
  | zero =>
    intro st q d h
    cases q with
    | nil => exact h.i4
    | cons a as => exact h.i4
  | succ f ih =>
    intro st q d h
    cases q with
    | nil => exact h.i4
    | cons a as =>
      simp only [bfs]
      exact ih _ _ _ (wave_to_bfsInv links st.visited d _ _
        (waveInv_processWave links st.visited d (a :: as) st []
          (bfsInv_to_wave links st (a :: as) d h)))

/-! ### The initial state satisfies the invariant -/

theorem alKeys_nodup_alSet {α : Type} (m : List (String × α)) (k : String)
    (v : α) (h : (alKeys m).Nodup) : (alKeys (alSet m k v)).Nodup := by
  cases hg : alGet m k with
  | some w =>
    rw [alKeys_alSet_of_mem _ _ _ (by rw [hg]; rfl)]
    exact h
  | none =>
    rw [alKeys_alSet_of_not_mem _ _ _ hg]
    rw [List.nodup_append]
    refine ⟨h, List.nodup_singleton _, ?_⟩
    intro a ha hak
    rw [List.mem_singleton] at hak
    subst hak
    have : (alGet m a).isSome := (alGet_isSome_iff_mem_alKeys m a).mpr ha
    rw [hg] at this
    simp at this

theorem alGet_of_mem_nodup {α : Type} {m : List (String × α)}
    (h : (alKeys m).Nodup) {k : String} {v : α} (hm : (k, v) ∈ m) :
    alGet m k = some v := by
  induction m with
  | nil => simp at hm
  | cons p rest ih =>
    simp only [alKeys, List.map_cons, List.nodup_cons] at h
    rcases List.mem_cons.mp hm with h1 | h2
    · rw [alGet, if_pos (by rw [← h1])]
      rw [← h1]
    · have hk : k ∈ alKeys rest := List.mem_map.mpr ⟨(k, v), h2, rfl⟩
      have hp : p.1 ≠ k := by
        intro hpk
        apply h.1
        rw [hpk]
        simpa [alKeys] using hk
      rw [alGet, if_neg hp]
      exact ih (by simpa [alKeys] using h.2) h2

theorem alGet_getD_alSet {α : Type} (m : List (String × α)) (k t : String)
    (v fb : α) :
    (alGet (alSet m k v) t).getD fb =
      if t = k then v else (alGet m t).getD fb := by
  by_cases h : t = k
  · rw [if_pos h, h, alGet_alSet_self]
    rfl
  · rw [if_neg h, alGet_alSet_ne _ _ _ _ h]

/-- The number of links targeting `t`. -/
def cntTgt (links : List SankeyLink) (t : String) : Nat :=
  (links.filter (fun lk => decide (lk.target = t))).length

theorem cntTgt_cons (lk : SankeyLink) (rest : List SankeyLink) (t : String) :
    cntTgt (lk :: rest) t = cntTgt rest t + (if lk.target = t then 1 else 0) := by
  unfold cntTgt
  rw [length_filter_cons]
  by_cases h : lk.target = t
  · rw [if_pos (by simp [h]), if_pos h]
    omega
  · rw [if_neg (by simpa using h), if_neg h]
    omega

theorem initZeroMap_val (nodes : List SankeyNode) (t : String) :
    ((alGet (nodes.foldl (fun m node => alSet m node.name 0)
      ([] : List (String × Int))) t).getD 0) = 0 := by
  suffices h : ∀ (l : List SankeyNode) (m0 : List (String × Int)),
      (∀ x, (alGet m0 x).getD 0 = 0) →
      ∀ x, ((alGet (l.foldl (fun m node => alSet m node.name 0) m0) x).getD 0) = 0 by
    exact h nodes [] (fun x => rfl) t
  intro l
  induction l with
  | nil => intro m0 h x; exact h x
  | cons node rest ih =>
    intro m0 h x
    simp only [List.foldl_cons]
    apply ih
    intro y
    rw [alGet_getD_alSet]
    by_cases hy : y = node.name
    · rw [if_pos hy]
    · rw [if_neg hy]
      exact h y

theorem linksFold_val (links : List SankeyLink) :
    ∀ (m0 : List (String × Int)) (t : String),
      ((alGet (links.foldl (fun m link =>
        alSet m link.target ((alGet m link.target).getD 0 + 1)) m0) t).getD 0) =
        (alGet m0 t).getD 0 + (cntTgt links t : Int) := by
  induction links with
  | nil =>
    intro m0 t
    unfold cntTgt
    simp
  | cons lk rest ih =>
    intro m0 t
    simp only [List.foldl_cons]
    rw [ih, cntTgt_cons, alGet_getD_alSet]
    by_cases ht : t = lk.target
    · subst ht
      rw [if_pos rfl, if_pos rfl]
      push_cast
      omega
    · rw [if_neg ht, if_neg (fun h => ht h.symm)]
      push_cast
      omega

theorem initInDeg_val (nodes : List SankeyNode) (links : List SankeyLink)
    (t : String) :
    ((alGet (initInDeg nodes links) t).getD 0) = (cntTgt links t : Int) := by
  unfold initInDeg
  rw [linksFold_val, initZeroMap_val]
  omega

theorem inCnt_nil_visited (links : List SankeyLink) (t : String) :
    inCnt links [] t = cntTgt links t := by
  unfold inCnt cntTgt
  congr 1
  apply List.filter_congr
  intro lk _
  simp [List.contains_nil]

theorem initInDeg_keys_nodup (nodes : List SankeyNode)
    (links : List SankeyLink) : (alKeys (initInDeg nodes links)).Nodup := by
  unfold initInDeg
  have hzero : ∀ (l : List SankeyNode) (m0 : List (String × Int)),
      (alKeys m0).Nodup →
      (alKeys (l.foldl (fun m node => alSet m node.name 0) m0)).Nodup := by
    intro l
    induction l with
    | nil => intro m0 h; exact h
    | cons node rest ih =>
      intro m0 h
      simp only [List.foldl_cons]
      exact ih _ (alKeys_nodup_alSet m0 node.name 0 h)
  have hlinks : ∀ (ls : List SankeyLink) (m0 : List (String × Int)),
      (alKeys m0).Nodup →
      (alKeys (ls.foldl (fun m link =>
        alSet m link.target ((alGet m link.target).getD 0 + 1)) m0)).Nodup := by
    intro ls
    induction ls with
    | nil => intro m0 h; exact h
    | cons lk rest ih =>
      intro m0 h
      simp only [List.foldl_cons]
      exact ih _ (alKeys_nodup_alSet m0 lk.target _ h)
  exact hlinks links _ (hzero nodes [] List.nodup_nil)

theorem initQueue_mem : ∀ (m : List (String × Int)) (acc : List String)
    (x : String),
    x ∈ m.foldl (fun q p => if p.2 = 0 then q ++ [p.1] else q) acc →
    x ∈ acc ∨ ∃ v, (x, v) ∈ m ∧ v = 0 := by
  intro m
  induction m with
  | nil => intro acc x h; exact Or.inl h
  | cons p rest ih =>
    intro acc x h
    simp only [List.foldl_cons] at h
    rcases ih _ x h with h1 | ⟨v, hv, hv0⟩
    · by_cases hp : p.2 = 0
      · rw [if_pos hp] at h1
        rcases List.mem_append.mp h1 with h2 | h3
        · exact Or.inl h2
        · rw [List.mem_singleton] at h3
          subst h3
          exact Or.inr ⟨p.2, List.mem_cons_self p rest, hp⟩
      · rw [if_neg hp] at h1
        exact Or.inl h1
    · exact Or.inr ⟨v, List.mem_cons_of_mem _ hv, hv0⟩

theorem cntTgt_zero_no_links {links : List SankeyLink} {n : String}
    (h : cntTgt links n = 0) : ∀ lk ∈ links, lk.target ≠ n := by
  intro lk hlk htgt
  unfold cntTgt at h
  have hf := List.filter_eq_nil_iff.mp (List.length_eq_zero.mp h) lk hlk
  simp only [decide_eq_true_eq] at hf
  exact hf htgt

theorem bfsInv_init (nodes : List SankeyNode) (links : List SankeyLink) :
    BfsInv links (initState nodes links)
      (initQueue (initInDeg nodes links)) 0 := by
  refine ⟨?_, ?_, ?_, ?_⟩
  · intro n hn
    simp [initState] at hn
  · intro t
    unfold inDegVal
    simp only [initState]
    have h := inCnt_nil_visited links t
    rw [initInDeg_val]
    omega
  · intro n hn lk hlk htgt
    unfold initQueue at hn
    rcases initQueue_mem _ _ _ hn with h1 | ⟨v, hv, hv0⟩
    · simp at h1
    · subst hv0
      have hget : alGet (initInDeg nodes links) n = some 0 :=
        alGet_of_mem_nodup (initInDeg_keys_nodup nodes links) hv
      have hval : ((alGet (initInDeg nodes links) n).getD 0) =
          (cntTgt links n : Int) := initInDeg_val nodes links n
      rw [hget] at hval
      simp only [Option.getD_some] at hval
      have hz : cntTgt links n = 0 := by omega
      exact absurd htgt (cntTgt_zero_no_links hz lk hlk)
  · intro lk hlk htv
    simp [initState] at htv

/-- C3 (amended): for every edge (s→t) whose target the breadth-first
traversal actually visits (assigns a wave depth to, rather than leaving
the fallback), the source is also visited and the depth assigned to `t`
is at least the depth assigned to `s` plus one.  The claim's original
precondition — `t` merely acyclically reachable from a zero-in-degree
node — is refuted by `layeringClaim_counterexample`: an unrelieved edge
out of a cycle can keep such a `t` unvisited at fallback depth `0`. -/
theorem calculateNodeDepths_layering (nodes : List SankeyNode)
    (links : List SankeyLink) :
    ∀ lk ∈ links, lk.target ∈ (depthsFinalState nodes links).visited →
      lk.source ∈ (depthsFinalState nodes links).visited ∧
      ∃ ds dt, depthIn (depthsFinalState nodes links) lk.source = some ds ∧
        depthIn (depthsFinalState nodes links) lk.target = some dt ∧
        ds + 1 ≤ dt := by
  unfold depthsFinalState
  exact bfsInv_preserved links _ _ _ 0 (bfsInv_init nodes links)

/-- Witness for `calculateNodeDepths_layering` at Scenario A: the BFS
visits `C`, and the edge `B → C` gets `depth(B) + 1 ≤ depth(C)`. -/
theorem calculateNodeDepths_layering_witness :
    "B" ∈ (depthsFinalState scenarioANodes scenarioAAggLinks).visited ∧
    ∃ ds dt,
      depthIn (depthsFinalState scenarioANodes scenarioAAggLinks) "B" = some ds ∧
      depthIn (depthsFinalState scenarioANodes scenarioAAggLinks) "C" = some dt ∧
      ds + 1 ≤ dt :=
  calculateNodeDepths_layering scenarioANodes scenarioAAggLinks
    { source := "B", target := "C", value := 3 } (by decide) (by decide)

/-! ## Node layering: edges referencing unknown labels (C6) -/

/-- Whether a label names a node of the collection. -/
def knownName (nodes : List SankeyNode) (n : String) : Bool :=
  (nodes.map (fun nd => nd.name)).contains n

/-- The links whose target is in the node collection. -/
def knownTargetLinks (nodes : List SankeyNode) (links : List SankeyLink) :
    List SankeyLink :=
  links.filter (fun lk => knownName nodes lk.target)

/-- The links both of whose endpoints are in the node collection — the
removal set the claim speaks about is the complement of this. -/
def knownRefLinks (nodes : List SankeyNode) (links : List SankeyLink) :
    List SankeyLink :=
  links.filter (fun lk => knownName nodes lk.source && knownName nodes lk.target)

/-- Nodes of the unknown-source counterexample. -/
def unknownRefNodes : List SankeyNode := [{ name := "X" }, { name := "Y" }]

/-- Links of the unknown-source counterexample: `P` is not a node. -/
def unknownRefLinks : List SankeyLink :=
  [{ source := "P", target := "X", value := 1 },
   { source := "X", target := "Y", value := 1 }]

/-- C6 is false as stated: removing the edges that reference a label
outside the node collection can change the computed depths.  With nodes
`{X, Y}` and links `P→X, X→Y` (`P` unknown), the edge `P→X` permanently
inflates `X`'s in-degree, so nothing is ever dequeued and `Y` keeps depth
`0`; with that edge removed, `X` seeds the queue and `Y` gets depth `1`. -/
theorem unknown_refs_not_ignored_counterexample :
    calculateNodeDepths unknownRefNodes unknownRefLinks ≠
      calculateNodeDepths unknownRefNodes
        (knownRefLinks unknownRefNodes unknownRefLinks) := by
  decide

theorem mem_alKeys_alSet {α : Type} (m : List (String × α)) (k x : String)
    (v : α) : x ∈ alKeys (alSet m k v) ↔ x ∈ alKeys m ∨ x = k := by
  cases hg : alGet m k with
  | some w =>
    rw [alKeys_alSet_of_mem _ _ _ (by rw [hg]; rfl)]
    constructor
    · exact Or.inl
    · rintro (h | h)
      · exact h
      · subst h
        exact (alGet_isSome_iff_mem_alKeys m x).mp (by rw [hg]; rfl)
  | none =>
    rw [alKeys_alSet_of_not_mem _ _ _ hg]
    simp

theorem mem_alKeys_initNodeMap (nodes : List SankeyNode) (x : String) :
    x ∈ alKeys (initNodeMap nodes) ↔ x ∈ nodes.map (fun nd => nd.name) := by
  unfold initNodeMap
  suffices h : ∀ (l : List SankeyNode) (m0 : List (String × SankeyNode)),
      x ∈ alKeys (l.foldl (fun m node =>
        alSet m node.name { node with depth := some 0 }) m0) ↔
      x ∈ alKeys m0 ∨ x ∈ l.map (fun nd => nd.name) by
    rw [h nodes []]
    simp [alKeys]
  intro l
  induction l with
  | nil => intro m0; simp
  | cons node rest ih =>
    intro m0
    simp only [List.foldl_cons, List.map_cons]
    rw [ih, mem_alKeys_alSet]
    simp only [List.mem_cons]
    tauto

theorem initNodeMap_isSome_eq_known (nodes : List SankeyNode) (k : String) :
    (alGet (initNodeMap nodes) k).isSome = knownName nodes k := by
  rcases Bool.eq_false_or_eq_true (knownName nodes k) with hb | hb
  · rw [hb]
    have hb2 : (nodes.map (fun nd => nd.name)).contains k = true := hb
    have hmem : k ∈ nodes.map (fun nd => nd.name) := List.elem_iff.mp hb2
    exact (alGet_isSome_iff_mem_alKeys _ _).mpr
      ((mem_alKeys_initNodeMap nodes k).mpr hmem)
  · rw [hb]
    have hb2 : (nodes.map (fun nd => nd.name)).contains k = false := hb
    have hnm : k ∉ nodes.map (fun nd => nd.name) := not_mem_of_contains_false hb2
    rcases Bool.eq_false_or_eq_true ((alGet (initNodeMap nodes) k).isSome)
      with h2 | h2
    · exact absurd ((mem_alKeys_initNodeMap nodes k).mp
        ((alGet_isSome_iff_mem_alKeys _ _).mp h2)) hnm
    · exact h2

theorem alGet_filter_pred {α : Type} (pred : String → Bool)
    (m : List (String × α)) (k : String) (h : pred k = true) :
    alGet (m.filter (fun p => pred p.1)) k = alGet m k := by
  induction m with
  | nil => rfl
  | cons p rest ih =>
    by_cases hp : p.1 = k
    · rw [List.filter_cons_of_pos (by rw [hp]; exact h), alGet, if_pos hp,
        alGet, if_pos hp]
    · by_cases hpred : pred p.1
      · rw [List.filter_cons_of_pos (by exact hpred), alGet, if_neg hp, alGet,
          if_neg hp]
        exact ih
      · rw [List.filter_cons_of_neg (by simpa using hpred), alGet, if_neg hp]
        exact ih

theorem filter_alSet_pos {α : Type} (pred : String → Bool)
    (m : List (String × α)) (k : String) (v : α) (h : pred k = true) :
    (alSet m k v).filter (fun p => pred p.1) =
      alSet (m.filter (fun p => pred p.1)) k v := by
  induction m with
  | nil => simp [alSet, h]
  | cons p rest ih =>
    by_cases hp : p.1 = k
    · rw [alSet, if_pos hp, List.filter_cons_of_pos (by exact h),
        List.filter_cons_of_pos (by rw [hp]; exact h), alSet, if_pos hp]
    · by_cases hpred : pred p.1
      · rw [alSet, if_neg hp, List.filter_cons_of_pos (by exact hpred),
          List.filter_cons_of_pos (by exact hpred), alSet, if_neg hp, ih]
      · rw [alSet, if_neg hp, List.filter_cons_of_neg (by simpa using hpred),
          List.filter_cons_of_neg (by simpa using hpred), ih]

theorem filter_alSet_neg {α : Type} (pred : String → Bool)
    (m : List (String × α)) (k : String) (v : α) (h : pred k = false) :
    (alSet m k v).filter (fun p => pred p.1) = m.filter (fun p => pred p.1) := by
  induction m with
  | nil => simp [alSet, h]
  | cons p rest ih =>
    by_cases hp : p.1 = k
    · rw [alSet, if_pos hp, List.filter_cons_of_neg (by simp [h]),
        List.filter_cons_of_neg (by rw [hp]; simp [h])]
    · by_cases hpred : pred p.1
      · rw [alSet, if_neg hp, List.filter_cons_of_pos (by exact hpred),
          List.filter_cons_of_pos (by exact hpred), ih]
      · rw [alSet, if_neg hp, List.filter_cons_of_neg (by simpa using hpred),
          List.filter_cons_of_neg (by simpa using hpred), ih]

theorem zeroMap_entries_known (nodes : List SankeyNode) :
    ∀ p ∈ nodes.foldl (fun m node => alSet m node.name 0)
      ([] : List (String × Int)), knownName nodes p.1 = true := by
  suffices h : ∀ (l : List SankeyNode) (m0 : List (String × Int)),
      (∀ p ∈ m0, p.1 ∈ nodes.map (fun nd => nd.name)) →
      (∀ nd ∈ l, nd.name ∈ nodes.map (fun nd => nd.name)) →
      ∀ p ∈ l.foldl (fun m node => alSet m node.name 0) m0,
        p.1 ∈ nodes.map (fun nd => nd.name) by
    intro p hp
    have := h nodes [] (by intro p hp; simp at hp)
      (fun nd hnd => List.mem_map.mpr ⟨nd, hnd, rfl⟩) p hp
    exact List.elem_iff.mpr this
  intro l
  induction l with
  | nil => intro m0 h0 _ p hp; exact h0 p hp
  | cons node rest ih =>
    intro m0 h0 hl p hp
    simp only [List.foldl_cons] at hp
    refine ih _ ?_ (fun nd hnd => hl nd (List.mem_cons_of_mem _ hnd)) p hp
    intro q hq
    rcases mem_alSet_weak hq with h1 | h2
    · rw [h1]
      exact hl node (List.mem_cons_self _ _)
    · exact h0 q h2

theorem initInDeg_filter (nodes : List SankeyNode) (links : List SankeyLink) :
    initInDeg nodes (knownTargetLinks nodes links) =
      (initInDeg nodes links).filter (fun p => knownName nodes p.1) := by
  unfold initInDeg knownTargetLinks
  have hgen : ∀ (ls : List SankeyLink) (m : List (String × Int)),
      (ls.filter (fun lk => knownName nodes lk.target)).foldl
        (fun m link => alSet m link.target ((alGet m link.target).getD 0 + 1))
        (m.filter (fun p => knownName nodes p.1)) =
      (ls.foldl (fun m link =>
        alSet m link.target ((alGet m link.target).getD 0 + 1)) m).filter
          (fun p => knownName nodes p.1) := by
    intro ls
    induction ls with
    | nil => intro m; rfl
    | cons lk rest ih =>
      intro m
      rcases Bool.eq_false_or_eq_true (knownName nodes lk.target) with hb | hb
      · rw [List.filter_cons_of_pos (by exact hb), List.foldl_cons,
          List.foldl_cons, alGet_filter_pred _ _ _ hb,
          ← filter_alSet_pos _ _ _ _ hb]
        exact ih _
      · rw [List.filter_cons_of_neg (by simp [hb]), List.foldl_cons,
          ← filter_alSet_neg (knownName nodes) m lk.target
            ((alGet m lk.target).getD 0 + 1) hb]
        exact ih _
  have hbase : (nodes.foldl (fun m node => alSet m node.name 0)
      ([] : List (String × Int))).filter (fun p => knownName nodes p.1) =
      nodes.foldl (fun m node => alSet m node.name 0) [] := by
    apply List.filter_eq_self.mpr
    intro p hp
    exact zeroMap_entries_known nodes p hp
  conv_lhs => rw [← hbase]
  exact hgen links _

theorem initQueue_eq_filterMap : ∀ (m : List (String × Int))
    (acc : List String),
    m.foldl (fun q p => if p.2 = 0 then q ++ [p.1] else q) acc =
      acc ++ (m.filter (fun p => decide (p.2 = 0))).map (fun p => p.1) := by
  intro m
  induction m with
  | nil => intro acc; simp
  | cons p rest ih =>
    intro acc
    simp only [List.foldl_cons]
    by_cases hp : p.2 = 0
    · rw [if_pos hp, ih, List.filter_cons_of_pos (by simp [hp])]
      simp
    · rw [if_neg hp, ih, List.filter_cons_of_neg (by simpa using hp)]

theorem map_fst_filter_pred {α : Type} (pred : String → Bool)
    (l : List (String × α)) :
    (l.filter (fun p => pred p.1)).map (fun p => p.1) =
      (l.map (fun p => p.1)).filter pred := by
  induction l with
  | nil => rfl
  | cons p rest ih =>
    by_cases hp : pred p.1
    · rw [List.filter_cons_of_pos (by exact hp), List.map_cons, List.map_cons,
        List.filter_cons_of_pos (by exact hp), ih]
    · rw [List.filter_cons_of_neg (by simpa using hp), List.map_cons,
        List.filter_cons_of_neg (by simpa using hp), ih]

theorem initQueue_filter (nodes : List SankeyNode) (links : List SankeyLink) :
    initQueue (initInDeg nodes (knownTargetLinks nodes links)) =
      (initQueue (initInDeg nodes links)).filter (knownName nodes) := by
  unfold initQueue
  rw [initInDeg_filter, initQueue_eq_filterMap, initQueue_eq_filterMap]
  simp only [List.nil_append]
  rw [List.filter_comm]
  exact map_fst_filter_pred _ _

theorem filter_append_known (nodes : List SankeyNode) (nx : List String)
    (k : String) (hk : knownName nodes k = true) :
    (nx ++ [k]).filter (knownName nodes) = nx.filter (knownName nodes) ++ [k] := by
  rw [List.filter_append]
  congr 1
  rw [List.filter_cons_of_pos (by exact hk)]
  rfl

theorem filter_append_unknown (nodes : List SankeyNode) (nx : List String)
    (k : String) (hk : knownName nodes k = false) :
    (nx ++ [k]).filter (knownName nodes) = nx.filter (knownName nodes) := by
  rw [List.filter_append]
  rw [List.filter_cons_of_neg (by simp [hk])]
  simp

theorem relax_sim (nodes : List SankeyNode) (name : String) (V : List String) :
    ∀ (ls : List SankeyLink) (inDeg1 inDeg2 : List (String × Int))
      (nx1 nx2 : List String),
      (∀ t, knownName nodes t = true →
        (alGet inDeg1 t).getD 0 = (alGet inDeg2 t).getD 0) →
      nx2 = nx1.filter (knownName nodes) →
      (∀ t, knownName nodes t = true →
        (alGet (relaxLinks name V inDeg1 nx1 ls).1 t).getD 0 =
          (alGet (relaxLinks name V inDeg2 nx2
            (ls.filter (fun lk => knownName nodes lk.target))).1 t).getD 0) ∧
      (relaxLinks name V inDeg2 nx2
          (ls.filter (fun lk => knownName nodes lk.target))).2 =
        ((relaxLinks name V inDeg1 nx1 ls).2).filter (knownName nodes) := by
  intro ls
  induction ls with
  | nil =>
    intro inDeg1 inDeg2 nx1 nx2 hdeg hnx
    exact ⟨hdeg, hnx⟩
  | cons lk rest ih =>
    intro inDeg1 inDeg2 nx1 nx2 hdeg hnx
    by_cases hs : lk.source = name
    · rcases Bool.eq_false_or_eq_true (knownName nodes lk.target) with hkt | hkt
      · -- target known: the link is kept, both runs decrement it
        rw [List.filter_cons_of_pos (by exact hkt)]
        simp only [relaxLinks]
        rw [if_pos hs, if_pos hs, ← hdeg lk.target hkt]
        have hdeg2 : ∀ t, knownName nodes t = true →
            (alGet (alSet inDeg1 lk.target
              ((alGet inDeg1 lk.target).getD 0 - 1)) t).getD 0 =
            (alGet (alSet inDeg2 lk.target
              ((alGet inDeg1 lk.target).getD 0 - 1)) t).getD 0 := by
          intro t ht
          rw [alGet_getD_alSet, alGet_getD_alSet]
          by_cases htk : t = lk.target
          · rw [if_pos htk, if_pos htk]
          · rw [if_neg htk, if_neg htk]
            exact hdeg t ht
        by_cases hc : (alGet inDeg1 lk.target).getD 0 - 1 = 0 ∧
            ¬ V.contains lk.target
        · rw [if_pos hc, if_pos hc]
          exact ih _ _ _ _ hdeg2
            (by rw [hnx, filter_append_known nodes nx1 lk.target hkt])
        · rw [if_neg hc, if_neg hc]
          exact ih _ _ _ _ hdeg2 hnx
      · -- target unknown: run 1 decrements a phantom entry, run 2 skips
        rw [List.filter_cons_of_neg (by simp [hkt])]
        simp only [relaxLinks]
        rw [if_pos hs]
        have hdeg2 : ∀ t, knownName nodes t = true →
            (alGet (alSet inDeg1 lk.target
              ((alGet inDeg1 lk.target).getD 0 - 1)) t).getD 0 =
            (alGet inDeg2 t).getD 0 := by
          intro t ht
          have htk : t ≠ lk.target := by
            intro h
            rw [h, hkt] at ht
            exact absurd ht (by simp)
          rw [alGet_getD_alSet, if_neg htk]
          exact hdeg t ht
        by_cases hc : (alGet inDeg1 lk.target).getD 0 - 1 = 0 ∧
            ¬ V.contains lk.target
        · rw [if_pos hc]
          exact ih _ _ _ _ hdeg2
            (by rw [hnx, filter_append_unknown nodes nx1 lk.target hkt])
        · rw [if_neg hc]
          exact ih _ _ _ _ hdeg2 hnx
    · -- the link leaves another node: skipped wherever it appears
      rcases Bool.eq_false_or_eq_true (knownName nodes lk.target) with hkt | hkt
      · rw [List.filter_cons_of_pos (by exact hkt)]
        simp only [relaxLinks]
        rw [if_neg hs, if_neg hs]
        exact ih _ _ _ _ hdeg hnx
      · rw [List.filter_cons_of_neg (by simp [hkt])]
        simp only [relaxLinks]
        rw [if_neg hs]
        exact ih _ _ _ _ hdeg hnx

theorem isSome_false_eq_none {α : Type} {o : Option α}
    (h : o.isSome = false) : o = none := by
  cases o with
  | none => rfl
  | some v => simp at h

theorem processNode_sim (nodes : List SankeyNode) (links : List SankeyLink)
    (d : Int) (st1 st2 : BfsState) (nx1 nx2 : List String) (name : String)
    (hnm : st1.nodeMap = st2.nodeMap) (hvis : st1.visited = st2.visited)
    (hdeg : ∀ t, knownName nodes t = true →
      (alGet st1.inDeg t).getD 0 = (alGet st2.inDeg t).getD 0)
    (hkeys : ∀ k, (alGet st1.nodeMap k).isSome = knownName nodes k)
    (hnx : nx2 = nx1.filter (knownName nodes)) :
    (processNode links d st1 nx1 name).1.nodeMap =
      (processNode (knownTargetLinks nodes links) d st2 nx2 name).1.nodeMap ∧
    (processNode links d st1 nx1 name).1.visited =
      (processNode (knownTargetLinks nodes links) d st2 nx2 name).1.visited ∧
    (∀ t, knownName nodes t = true →
      (alGet (processNode links d st1 nx1 name).1.inDeg t).getD 0 =
        (alGet (processNode (knownTargetLinks nodes links) d st2 nx2
          name).1.inDeg t).getD 0) ∧
    (∀ k, (alGet (processNode links d st1 nx1 name).1.nodeMap k).isSome =
      knownName nodes k) ∧
    (processNode (knownTargetLinks nodes links) d st2 nx2 name).2 =
      ((processNode links d st1 nx1 name).2).filter (knownName nodes) := by
  cases hg : alGet st1.nodeMap name with
  | none =>
    have hg2 : alGet st2.nodeMap name = none := by rw [← hnm]; exact hg
    rw [processNode_skip_none links d st1 nx1 name hg,
      processNode_skip_none _ d st2 nx2 name hg2]
    exact ⟨hnm, hvis, hdeg, hkeys, hnx⟩
  | some node =>
    have hg2 : alGet st2.nodeMap name = some node := by rw [← hnm]; exact hg
    rcases Bool.eq_false_or_eq_true (st1.visited.contains name) with hv | hv
    · have hv2 : st2.visited.contains name = true := by rw [← hvis]; exact hv
      rw [processNode_skip_visited links d st1 nx1 name node hg hv,
        processNode_skip_visited _ d st2 nx2 name node hg2 hv2]
      exact ⟨hnm, hvis, hdeg, hkeys, hnx⟩
    · have hv2 : st2.visited.contains name = false := by rw [← hvis]; exact hv
      rw [processNode_visit_eq links d st1 nx1 name node hg hv,
        processNode_visit_eq _ d st2 nx2 name node hg2 hv2]
      rw [← hvis, ← hnm]
      obtain ⟨hrd, hrn⟩ := relax_sim nodes name (st1.visited ++ [name]) links
        st1.inDeg st2.inDeg nx1 nx2 hdeg hnx
      refine ⟨rfl, rfl, hrd, ?_, hrn⟩
      intro k
      by_cases hk : k = name
      · subst hk
        rw [alGet_alSet_self]
        have : (alGet st1.nodeMap k).isSome = true := by rw [hg]; rfl
        rw [← hkeys k, this]
        rfl
      · rw [alGet_alSet_ne _ _ _ _ hk]
        exact hkeys k

theorem phantom_wave (nodes : List SankeyNode) (links : List SankeyLink)
    (d : Int) : ∀ (q : List String) (st : BfsState) (nx : List String),
    (∀ n ∈ q, knownName nodes n = false) →
    (∀ k, (alGet st.nodeMap k).isSome = knownName nodes k) →
    processWave links d st q nx = (st, nx) := by
  intro q
  induction q with
  | nil => intro st nx _ _; rfl
  | cons name rest ih =>
    intro st nx hall hkeys
    have hg : alGet st.nodeMap name = none :=
      isSome_false_eq_none (by rw [hkeys name]
                               exact hall name (List.mem_cons_self _ _))
    simp only [processWave]
    rw [processNode_skip_none links d st nx name hg]
    exact ih st nx (fun n hn => hall n (List.mem_cons_of_mem _ hn)) hkeys

theorem wave_sim (nodes : List SankeyNode) (links : List SankeyLink) (d : Int) :
    ∀ (q1 : List String) (st1 st2 : BfsState) (nx1 nx2 : List String),
      st1.nodeMap = st2.nodeMap → st1.visited = st2.visited →
      (∀ t, knownName nodes t = true →
        (alGet st1.inDeg t).getD 0 = (alGet st2.inDeg t).getD 0) →
      (∀ k, (alGet st1.nodeMap k).isSome = knownName nodes k) →
      nx2 = nx1.filter (knownName nodes) →
      (processWave links d st1 q1 nx1).1.nodeMap =
        (processWave (knownTargetLinks nodes links) d st2
          (q1.filter (knownName nodes)) nx2).1.nodeMap ∧
      (processWave links d st1 q1 nx1).1.visited =
        (processWave (knownTargetLinks nodes links) d st2
          (q1.filter (knownName nodes)) nx2).1.visited ∧
      (∀ t, knownName nodes t = true →
        (alGet (processWave links d st1 q1 nx1).1.inDeg t).getD 0 =
          (alGet (processWave (knownTargetLinks nodes links) d st2
            (q1.filter (knownName nodes)) nx2).1.inDeg t).getD 0) ∧
      (∀ k, (alGet (processWave links d st1 q1 nx1).1.nodeMap k).isSome =
        knownName nodes k) ∧
      (processWave (knownTargetLinks nodes links) d st2
          (q1.filter (knownName nodes)) nx2).2 =
        ((processWave links d st1 q1 nx1).2).filter (knownName nodes) := by
  intro q1
  induction q1 with
  | nil =>
    intro st1 st2 nx1 nx2 hnm hvis hdeg hkeys hnx
    exact ⟨hnm, hvis, hdeg, hkeys, hnx⟩
  | cons name rest ih =>
    intro st1 st2 nx1 nx2 hnm hvis hdeg hkeys hnx
    rcases Bool.eq_false_or_eq_true (knownName nodes name) with hkn | hkn
    · rw [List.filter_cons_of_pos (by exact hkn)]
      simp only [processWave]
      obtain ⟨pnm, pvis, pdeg, pkeys, pnx⟩ :=
        processNode_sim nodes links d st1 st2 nx1 nx2 name hnm hvis hdeg
          hkeys hnx
      exact ih _ _ _ _ pnm pvis pdeg pkeys pnx
    · rw [List.filter_cons_of_neg (by simp [hkn])]
      simp only [processWave]
      have hg : alGet st1.nodeMap name = none :=
        isSome_false_eq_none (by rw [hkeys name]; exact hkn)
      rw [processNode_skip_none links d st1 nx1 name hg]
      exact ih _ _ _ _ hnm hvis hdeg hkeys hnx

theorem bfs_sim (nodes : List SankeyNode) (links : List SankeyLink) :
    ∀ (fuel : Nat) (st1 st2 : BfsState) (q1 : List String) (d : Int),
      st1.nodeMap = st2.nodeMap → st1.visited = st2.visited →
      (∀ t, knownName nodes t = true →
        (alGet st1.inDeg t).getD 0 = (alGet st2.inDeg t).getD 0) →
      (∀ k, (alGet st1.nodeMap k).isSome = knownName nodes k) →
      (bfs links fuel st1 q1 d).nodeMap =
        (bfs (knownTargetLinks nodes links) fuel st2
          (q1.filter (knownName nodes)) d).nodeMap := by
  intro fuel
  induction fuel with
  | zero =>
    intro st1 st2 q1 d hnm hvis hdeg hkeys
    cases q1 with
    | nil => exact hnm
    | cons a as =>
      cases hq2 : (a :: as).filter (knownName nodes) with
      | nil => exact hnm
      | cons b bs => exact hnm
  | succ f ih =>
    intro st1 st2 q1 d hnm hvis hdeg hkeys
    cases q1 with
    | nil => exact hnm
    | cons a as =>
      cases hq2 : (a :: as).filter (knownName nodes) with
      | nil =>
        have hall : ∀ n ∈ a :: as, knownName nodes n = false := by
          intro n hn
          rcases Bool.eq_false_or_eq_true (knownName nodes n) with hb | hb
          · have : n ∈ (a :: as).filter (knownName nodes) :=
              List.mem_filter.mpr ⟨hn, hb⟩
            rw [hq2] at this
            simp at this
          · exact hb
        simp only [bfs]
        rw [phantom_wave nodes links d (a :: as) st1 [] hall hkeys]
        rw [bfs_nil]
        exact hnm
      | cons b bs =>
        simp only [bfs]
        obtain ⟨wnm, wvis, wdeg, wkeys, wnx⟩ :=
          wave_sim nodes links d (a :: as) st1 st2 [] [] hnm hvis hdeg hkeys rfl
        rw [hq2] at wnm wvis wdeg wnx
        rw [wnx]
        exact ih _ _ _ _ wnm wvis wdeg wkeys

/-- C6 (amended): `calculateNodeDepths` is total (the embedding handles
edges with endpoints outside the node collection without any partiality),
and edges whose target is not in the node collection are ignored for
layering — removing them leaves the result unchanged.  Edges whose
*source* is unknown are not ignored: they permanently inflate their
target's in-degree (`unknown_refs_not_ignored_counterexample`). -/
theorem calculateNodeDepths_unknown_targets_ignored (nodes : List SankeyNode)
    (links : List SankeyLink) :
    calculateNodeDepths nodes (knownTargetLinks nodes links) =
      calculateNodeDepths nodes links := by
  unfold calculateNodeDepths depthsFinalState
  have hdeg : ∀ t, knownName nodes t = true →
      (alGet (initState nodes links).inDeg t).getD 0 =
        (alGet (initState nodes (knownTargetLinks nodes links)).inDeg t).getD 0 := by
    intro t ht
    simp only [initState]
    rw [initInDeg_filter, alGet_filter_pred _ _ _ ht]
  have h := bfs_sim nodes links (nodes.length + 1) (initState nodes links)
    (initState nodes (knownTargetLinks nodes links))
    (initQueue (initInDeg nodes links)) 0 rfl rfl hdeg
    (fun k => initNodeMap_isSome_eq_known nodes k)
  rw [← initQueue_filter] at h
  rw [h]

end SigmaSankey
